import Mathlib

/-!
The log4cplus `helpers::Properties` store and `substVars` (src/property.cxx).

A shallow embedding of the property store, its loader and the `${...}`
substitution routine, followed by theorems about them.

Conventions of the embedding:

* `tstring` is `List Char` (the non-`UNICODE` build: `tchar = char`).
* `std::string::npos` is `none`; positions and sizes are `Nat`.  No size
  computation of the source can wrap: every subtraction is of a smaller
  position from a larger one.
* The process environment is a function `Env` (what `getenv` returns), the
  file system a function `FS` (the content of a path that opens, `none`
  for a path that does not open).
* The error sink `LogLog` is recorded as the list of the `error (msg, fatal)`
  calls a function makes, in order.
* Loops that need not terminate (`substVars` in recursive mode, nested
  `include`) carry a fuel argument and return `none` when it runs out.
-/

namespace log4cplus.helpers

/-- Text of the non-`UNICODE` build. -/
abbrev tstring := List Char

/-- Process environment: `getenv`. -/
abbrev Env := tstring → Option tstring

/-- File system: the bytes of a file that can be opened for reading. -/
abbrev FS := tstring → Option tstring

/-- One call of `LogLog::error (msg, throw_flag)`. -/
abbrev LogEntry := tstring × Bool

/-! ## Text utilities (property.cxx:64-110) -/

/-- `PROPERTIES_COMMENT_CHAR`. -/
def PROPERTIES_COMMENT_CHAR : Char := '#'

/-- `is_space`: `std::isspace` in the "C" locale. -/
def is_space (ch : Char) : Bool :=
  ch == ' ' || ch == '\t' || ch == '\n' || ch == '\x0b' || ch == '\x0c' || ch == '\r'

/-- `trim_leading_ws`: erase `[begin, it)` where `it` is the first
non-space position. -/
def trim_leading_ws (str : tstring) : tstring :=
  str.dropWhile is_space

/-- `trim_trailing_ws`: the same scan with reverse iterators. -/
def trim_trailing_ws (str : tstring) : tstring :=
  (str.reverse.dropWhile is_space).reverse

/-- `trim_ws`: trailing first, then leading. -/
def trim_ws (str : tstring) : tstring :=
  trim_leading_ws (trim_trailing_ws str)

/-! ## `std::basic_string` members used by the source -/

/-- Scan for `needle` in what is left of the text; `idx` is the absolute
position of the first character of `hay`. -/
def findAux (needle : tstring) : tstring → Nat → Option Nat
  | [], _ => none
  | c :: cs, idx =>
    if needle.isPrefixOf (c :: cs) then some idx else findAux needle cs (idx + 1)

/-- `str.find (needle, pos)` for a non-empty `needle`: the first position
`>= pos` at which `needle` occurs, `none` for `npos`. -/
def find (str needle : tstring) (pos : Nat) : Option Nat :=
  findAux needle (str.drop pos) pos

/-- `str.substr (pos, n)` / `key.assign (str, pos, n)`. -/
def substr (str : tstring) (pos n : Nat) : tstring :=
  (str.drop pos).take n

/-- `str.replace (pos, n, r)`. -/
def replace (str : tstring) (pos n : Nat) (r : tstring) : tstring :=
  str.take pos ++ r ++ str.drop (pos + n)

/-! ## The store (`Properties::data`) -/

/-- Modelled from the spec: the member `data` is declared in
`helpers/property.h`, which is not among the sources.  The spec calls it a
key to value mapping with unique keys; it is a `std::map`, kept here as an
association list in ascending key order. -/
abbrev StringMap := List (tstring × tstring)

/-- `std::less<tstring>`: lexicographic order on character codes. -/
def tstring_lt : tstring → tstring → Bool
  | _, [] => false
  | [], _ :: _ => true
  | a :: as, b :: bs =>
    if a.toNat < b.toNat then true
    else if b.toNat < a.toNat then false
    else tstring_lt as bs

/-- `data.find (key)`. -/
def StringMap.find (data : StringMap) (key : tstring) : Option tstring :=
  match data with
  | [] => none
  | (k, v) :: rest => if k = key then some v else StringMap.find rest key

/-- `data[key] = value`. -/
def StringMap.assign (data : StringMap) (key value : tstring) : StringMap :=
  match data with
  | [] => [(key, value)]
  | (k, v) :: rest =>
    if k = key then (key, value) :: rest
    else if tstring_lt key k then (key, value) :: (k, v) :: rest
    else (k, v) :: StringMap.assign rest key value

/-- `Properties::exists`. -/
def exists_ (data : StringMap) (key : tstring) : Bool :=
  (data.find key).isSome

/-- `Properties::getProperty (key)` through `get_property_worker`: the
value, or `internal::empty_str`. -/
def getProperty (data : StringMap) (key : tstring) : tstring :=
  match data.find key with
  | none => []
  | some v => v

/-- `Properties::propertyNames`. -/
def propertyNames (data : StringMap) : List tstring :=
  data.map Prod.fst

/-- `Properties::setProperty`. -/
def setProperty (data : StringMap) (key value : tstring) : StringMap :=
  data.assign key value

/-- `Properties::getPropertySubset`.  `key.compare (0, prefix_len, prefix)`
is `0` exactly when the first `prefix_len` characters of `key` (all of
`key` when it is shorter) are `prefix`. -/
def getPropertySubset (data : StringMap) (pre : tstring) : StringMap :=
  let prefix_len := pre.length
  (propertyNames data).foldl
    (fun ret key =>
      if key.take prefix_len = pre then
        setProperty ret (key.drop prefix_len) (getProperty data key)
      else ret)
    []

/-! ## Flags -/

/-- Modelled from the spec: `PropertyConfigurator::fRecursiveExpansion`
(declared in `configurator.h`, not among the sources), the
recursive-expansion bit of the substitution flags. -/
def fRecursiveExpansion : Nat := 1

/-- Modelled from the spec: `PropertyConfigurator::fShadowEnvironment`
(declared in `configurator.h`), the shadow-environment-with-store bit. -/
def fShadowEnvironment : Nat := 2

/-- Modelled from the spec: `PropertyConfigurator::fAllowEmptyVars`
(declared in `configurator.h`), the allow-empty-substitution bit. -/
def fAllowEmptyVars : Nat := 4

/-- Modelled from the spec: `Properties::fThrow` (declared in
`helpers/property.h`), the raise-on-open-failure bit of the load flags. -/
def fThrow : Nat := 32

/-- `!! (flags & bit)`. -/
def testFlag (flags bit : Nat) : Bool :=
  (flags &&& bit) != 0

/-! ## `substVars` (property.cxx:223-296) -/

/-- `DELIM_START`. -/
def DELIM_START : tstring := ['$', '\x7b']

/-- `DELIM_STOP`. -/
def DELIM_STOP : tstring := ['\x7d']

/-- `DELIM_START_LEN`. -/
def DELIM_START_LEN : Nat := 2

/-- `DELIM_STOP_LEN`. -/
def DELIM_STOP_LEN : Nat := 1

/-- Modelled from the spec: `internal::get_env_var (value, name)` is
declared in `internal/env.h`, which is not among the sources.  It stores
the environment variable `name` into `value` when the variable is set and
leaves `value` alone otherwise. -/
def get_env_var (env : Env) (value name : tstring) : tstring :=
  match env name with
  | some v => v
  | none => value

/-- Lines 271-275: the text `replacement` holds after the look-ups. -/
def lookupReplacement (props : StringMap) (env : Env)
    (empty_vars shadow_env : Bool) (key : tstring) : tstring :=
  let replacement : tstring := []
  let replacement := if shadow_env then getProperty props key else replacement
  if !shadow_env || (!empty_vars && replacement.isEmpty) then
    get_env_var env replacement key
  else replacement

/-- The message built at lines 260-264. -/
def noClosingBraceMsg (pattern : tstring) (var_start : Nat) : tstring :=
  ['"'] ++ pattern ++ "\" has no closing brace. ".toList
    ++ "Opening brace at position ".toList ++ (Nat.repr var_start).toList ++ ".".toList

/-- What a call of `substVars` leaves behind: `dest`, the returned flag and
the calls made on `loglog`. -/
structure SubstResult where
  dest : tstring
  changed : Bool
  errors : List LogEntry
deriving DecidableEq, Repr

/-- The `while (true)` loop of `substVars`; the state is `pattern`, `i`
and `changed`.  `none` when the fuel is used up before a `return`. -/
def substVarsLoop (val : tstring) (props : StringMap) (env : Env)
    (empty_vars shadow_env rec_exp : Bool) :
    Nat → tstring → Nat → Bool → Option SubstResult
  | 0, _, _, _ => none
  | fuel + 1, pattern, i, changed =>
    match find pattern DELIM_START i with
    | none => some ⟨pattern, changed, []⟩
    | some var_start =>
      match find pattern DELIM_STOP var_start with
      | none => some ⟨val, false, [(noClosingBraceMsg pattern var_start, false)]⟩
      | some var_end =>
        let key := substr pattern (var_start + DELIM_START_LEN)
          (var_end - (var_start + DELIM_START_LEN))
        let replacement := lookupReplacement props env empty_vars shadow_env key
        if empty_vars || !replacement.isEmpty then
          let pattern' := replace pattern var_start
            (var_end - var_start + DELIM_STOP_LEN) replacement
          if rec_exp then
            substVarsLoop val props env empty_vars shadow_env rec_exp fuel pattern' i true
          else
            substVarsLoop val props env empty_vars shadow_env rec_exp fuel pattern'
              (var_start + replacement.length) true
        else
          substVarsLoop val props env empty_vars shadow_env rec_exp fuel pattern
            (var_end + DELIM_STOP_LEN) changed

/-- `substVars (dest, val, props, loglog, flags)`, with the fuel of its
loop. -/
def substVars (fuel : Nat) (val : tstring) (props : StringMap) (env : Env)
    (flags : Nat) : Option SubstResult :=
  substVarsLoop val props env (testFlag flags fAllowEmptyVars)
    (testFlag flags fShadowEnvironment) (testFlag flags fRecursiveExpansion)
    fuel val 0 false

/-! ## Loading (property.cxx:303-392) -/

/-- What a load leaves behind: the store and the calls made on the error
sink. -/
structure Loaded where
  data : StringMap
  errors : List LogEntry
deriving DecidableEq, Repr

/-- The lines `while (std::getline (input, buffer))` reads from a stream
holding `s`: the text is cut at every newline, and a last line without a
newline is still read. -/
def getlines : tstring → List tstring
  | [] => []
  | c :: cs =>
    if c = '\n' then [] :: getlines cs
    else
      match getlines cs with
      | [] => [[c]]
      | l :: ls => (c :: l) :: ls

/-- `imbue_file_from_flags`: without `UNICODE` no case of the switch is
compiled in, the stream is left as it is. -/
def imbue_file_from_flags (file : Option tstring) (_flags : Nat) : Option tstring :=
  file

/-- The text `"could not open file " + name`. -/
def couldNotOpenMsg (name : tstring) : tstring :=
  "could not open file ".toList ++ name

/-- Body of the `while` loop of `Properties::init` for one line read into
`buffer`; `initRec` stands for the nested call `init (file)`.  A stream is
`none` when it is in a failed state (the file did not open). -/
def initLine (initRec : Option tstring → StringMap → Option Loaded)
    (fs : FS) (env : Env) (flags : Nat) (data : StringMap) (line : tstring) :
    Option Loaded :=
  let buffer := trim_leading_ws line
  let buffLen := buffer.length
  if buffLen == 0 || buffer.head? == some PROPERTIES_COMMENT_CHAR then
    some ⟨data, []⟩
  else
    let buffer :=
      if buffer.getLast? == some '\r' then buffer.take (buffLen - 1) else buffer
    if decide (buffer.length ≥ 7 + 1 + 1)
        && substr buffer 0 7 == "include".toList
        && is_space (buffer.getD 7 ' ') then
      let included := trim_ws (buffer.drop 8)
      match substVars (included.length + 1) included data env 0 with
      | none => none
      | some sub =>
        let subIncluded := sub.dest
        let file := imbue_file_from_flags (fs subIncluded) flags
        let openErrors : List LogEntry :=
          if file.isNone then [(couldNotOpenMsg subIncluded, false)] else []
        match initRec file data with
        | none => none
        | some inner => some ⟨inner.data, sub.errors ++ openErrors ++ inner.errors⟩
    else
      match find buffer ['='] 0 with
      | none => some ⟨data, []⟩
      | some idx =>
        let key := trim_trailing_ws (substr buffer 0 idx)
        let value := trim_ws (buffer.drop (idx + 1))
        some ⟨setProperty data key value, []⟩

/-- The `while` loop of `Properties::init` over the lines of the stream. -/
def initLines (initRec : Option tstring → StringMap → Option Loaded)
    (fs : FS) (env : Env) (flags : Nat) :
    List tstring → StringMap → Option Loaded
  | [], data => some ⟨data, []⟩
  | line :: rest, data =>
    match initLine initRec fs env flags data line with
    | none => none
    | some r1 =>
      match initLines initRec fs env flags rest r1.data with
      | none => none
      | some r2 => some ⟨r2.data, r1.errors ++ r2.errors⟩

/-- `Properties::init (input)` on the store `data`.  The fuel bounds the
depth of nested `include`; a stream in a failed state returns at once. -/
def init (fs : FS) (env : Env) (flags : Nat) :
    Nat → Option tstring → StringMap → Option Loaded
  | _, none, data => some ⟨data, []⟩
  | 0, some _, _ => none
  | fuel + 1, some s, data =>
    initLines (init fs env flags fuel) fs env flags (getlines s) data

/-- `Properties::Properties (tistream & input)`: `flags (0)`, then `init`. -/
def PropertiesFromStream (fuel : Nat) (fs : FS) (env : Env)
    (input : Option tstring) : Option Loaded :=
  init fs env 0 fuel input []

/-- Outcome of the constructor that opens a file: it completes with a
store, or the error sink raised `log4cplus::exception`. -/
inductive Constructed where
  | completed (data : StringMap) (errors : List LogEntry)
  | raised (errors : List LogEntry)
deriving DecidableEq, Repr

/-- Modelled from the spec: `LogLog::error (msg, throw_flag)` is defined in
`loglog.cxx`, which is not among the sources.  It records the message and,
when `throw_flag` is set, raises instead of returning; `k` is the rest of
the caller. -/
def logError (msg : tstring) (throw_flag : Bool)
    (k : Option Loaded) : Option Constructed :=
  if throw_flag then some (.raised [(msg, true)])
  else
    match k with
    | none => none
    | some r => some (.completed r.data ((msg, false) :: r.errors))

/-- `Properties::Properties (const tstring & inputFile, unsigned f)`. -/
def PropertiesFromFile (fuel : Nat) (fs : FS) (env : Env)
    (inputFile : tstring) (f : Nat) : Option Constructed :=
  if inputFile.isEmpty then some (.completed [] [])
  else
    let file := imbue_file_from_flags (fs inputFile) f
    if file.isNone then
      logError (couldNotOpenMsg inputFile) (testFlag f fThrow)
        (init fs env f fuel file [])
    else
      match init fs env f fuel file [] with
      | none => none
      | some r => some (.completed r.data r.errors)

/-! ## The reading of an assignment line in the specification -/

/-- The key of the assignment line `L` as the specification words it: the
text before the first `=`, without the whitespace around it. -/
def assignedKey (L : tstring) : tstring :=
  trim_ws (L.takeWhile (fun c => c != '='))

/-- The value of the assignment line `L` as the specification words it:
the text after the first `=`, without the whitespace around it. -/
def assignedValue (L : tstring) : tstring :=
  trim_ws ((L.dropWhile (fun c => c != '=')).drop 1)

/-- A plain assignment line of the specification: it has an `=`, has no
`#` and does not contain the word `include`. -/
def PlainAssignment (L : tstring) : Prop :=
  '=' ∈ L ∧ '#' ∉ L ∧ ¬ "include".toList <:+: L

instance (L : tstring) : Decidable (PlainAssignment L) := by
  unfold PlainAssignment
  infer_instance

/-- The value the last assignment to `k` gives in a sequence of assignment
lines, `none` when no line assigns `k`. -/
def lastAssignment (lines : List tstring) (k : tstring) : Option tstring :=
  (lines.reverse.find? (fun L => assignedKey L == k)).map assignedValue

/-! ## One iteration of the loop of `substVars` -/

/-- What one iteration of the `while (true)` loop does: it returns, or it
goes round again with a new `pattern`, `i` and `changed`. -/
inductive LoopStep where
  | returned (r : SubstResult)
  | again (pattern : tstring) (i : Nat) (changed : Bool)
deriving DecidableEq, Repr

/-- The body of the `while (true)` loop of `substVars` (lines 248-293), run
once from the state `pattern`, `i`, `changed`. -/
def substVarsStep (val : tstring) (props : StringMap) (env : Env)
    (empty_vars shadow_env rec_exp : Bool) (pattern : tstring) (i : Nat)
    (changed : Bool) : LoopStep :=
  match find pattern DELIM_START i with
  | none => .returned ⟨pattern, changed, []⟩
  | some var_start =>
    match find pattern DELIM_STOP var_start with
    | none => .returned ⟨val, false, [(noClosingBraceMsg pattern var_start, false)]⟩
    | some var_end =>
      let key := substr pattern (var_start + DELIM_START_LEN)
        (var_end - (var_start + DELIM_START_LEN))
      let replacement := lookupReplacement props env empty_vars shadow_env key
      if empty_vars || !replacement.isEmpty then
        let pattern' := replace pattern var_start
          (var_end - var_start + DELIM_STOP_LEN) replacement
        if rec_exp then .again pattern' i true
        else .again pattern' (var_start + replacement.length) true
      else .again pattern (var_end + DELIM_STOP_LEN) changed

/-! ## Lines and line endings -/

/-- Lines 359-390 of `init`: what the loop body does with `buffer` once a
trailing carriage return is gone. -/
def initBuffer (initRec : Option tstring → StringMap → Option Loaded)
    (fs : FS) (env : Env) (flags : Nat) (data : StringMap) (buffer : tstring) :
    Option Loaded :=
  if decide (buffer.length ≥ 7 + 1 + 1)
      && substr buffer 0 7 == "include".toList
      && is_space (buffer.getD 7 ' ') then
    let included := trim_ws (buffer.drop 8)
    match substVars (included.length + 1) included data env 0 with
    | none => none
    | some sub =>
      let subIncluded := sub.dest
      let file := imbue_file_from_flags (fs subIncluded) flags
      let openErrors : List LogEntry :=
        if file.isNone then [(couldNotOpenMsg subIncluded, false)] else []
      match initRec file data with
      | none => none
      | some inner => some ⟨inner.data, sub.errors ++ openErrors ++ inner.errors⟩
  else
    match find buffer ['='] 0 with
    | none => some ⟨data, []⟩
    | some idx =>
      let key := trim_trailing_ws (substr buffer 0 idx)
      let value := trim_ws (buffer.drop (idx + 1))
      some ⟨setProperty data key value, []⟩

/-- An include directive of the file format: after the leading whitespace
the line starts with `include` followed by a whitespace character. -/
def IncludeDirective (L : tstring) : Prop :=
  (substr (trim_leading_ws L) 0 7 == "include".toList
    && is_space ((trim_leading_ws L).getD 7 'x')) = true

instance (L : tstring) : Decidable (IncludeDirective L) := by
  unfold IncludeDirective
  infer_instance

/-- The stream in which every line of `lines` is followed by the line
ending `eol`. -/
def streamOf (eol : tstring) : List tstring → tstring
  | [] => []
  | L :: rest => L ++ eol ++ streamOf eol rest

/-! ## Typed reads (property.cxx:488-571) -/

/-- Width of `int` and `unsigned` in bits. -/
def INT_BITS : Nat := 32

/-- Width of `long` and `unsigned long` in bits (LP64). -/
def LONG_BITS : Nat := 64

/-- Value of a decimal digit. -/
def digitValue (c : Char) : Nat :=
  c.toNat - '0'.toNat

/-- Value of a run of decimal digits, accumulated from the left. -/
def decimalValue (digits : tstring) : Nat :=
  digits.foldl (fun acc c => 10 * acc + digitValue c) 0

/-- The extraction `iss >> tmp_val` of the C++ library into an integral
type that is signed or not and has `bits` bits, on a stream that holds `s`
(flags `dec | skipws`, "C" locale).  Leading whitespace is skipped, one
sign `+` or `-` is taken, then the decimal digits that follow.  The
extraction fails (`none`) when there is no digit or the number is out of
range: for a signed type the signed value must fit; for an unsigned type
the digits must give at most the largest value, and a `-` in front negates
the result in the unsigned type.  On success the result is the value and
what is left of the stream. -/
def extractInteger (isSigned : Bool) (bits : Nat) (s : tstring) : Option (Int × tstring) :=
  let s1 := s.dropWhile is_space
  let negative := s1.head? == some '-'
  let s2 := if s1.head? == some '-' || s1.head? == some '+' then s1.drop 1 else s1
  let digits := s2.takeWhile Char.isDigit
  let rest := s2.dropWhile Char.isDigit
  if digits.isEmpty then none
  else
    let magnitude := decimalValue digits
    if isSigned then
      if negative then
        if magnitude ≤ 2 ^ (bits - 1) then some (-(magnitude : Int), rest) else none
      else
        if magnitude ≤ 2 ^ (bits - 1) - 1 then some ((magnitude : Int), rest) else none
    else
      if magnitude ≤ 2 ^ bits - 1 then
        some (if negative then (((2 ^ bits - magnitude) % 2 ^ bits : Nat) : Int)
          else (magnitude : Int), rest)
      else none

/-- The extraction `iss >> ch` with `skipws`: it succeeds when a character
that is not whitespace is left in the stream. -/
def extractChar (s : tstring) : Option Char :=
  (s.dropWhile is_space).head?

/-- `Properties::get_type_val_worker` for an integral `ValType`; the result
is the returned flag and `val` after the call. -/
def get_type_val_worker (isSigned : Bool) (bits : Nat) (data : StringMap) (val : Int)
    (key : tstring) : Bool × Int :=
  if !exists_ data key then (false, val)
  else
    let prop_val := getProperty data key
    match extractInteger isSigned bits prop_val with
    | none => (false, val)
    | some (tmp_val, rest) =>
      if (extractChar rest).isSome then (false, val)
      else (true, tmp_val)

/-- `Properties::getInt`. -/
def getInt (data : StringMap) (val : Int) (key : tstring) : Bool × Int :=
  get_type_val_worker true INT_BITS data val key

/-- `Properties::getUInt`. -/
def getUInt (data : StringMap) (val : Int) (key : tstring) : Bool × Int :=
  get_type_val_worker false INT_BITS data val key

/-- `Properties::getLong`. -/
def getLong (data : StringMap) (val : Int) (key : tstring) : Bool × Int :=
  get_type_val_worker true LONG_BITS data val key

/-- `Properties::getULong`. -/
def getULong (data : StringMap) (val : Int) (key : tstring) : Bool × Int :=
  get_type_val_worker false LONG_BITS data val key

/-- The values of an integral type that is signed or not and has `bits`
bits. -/
def InRange (isSigned : Bool) (bits : Nat) (n : Int) : Prop :=
  if isSigned then -(2 ^ (bits - 1) : Int) ≤ n ∧ n ≤ 2 ^ (bits - 1) - 1
  else 0 ≤ n ∧ n ≤ 2 ^ bits - 1

instance (isSigned : Bool) (bits : Nat) (n : Int) : Decidable (InRange isSigned bits n) := by
  unfold InRange
  infer_instance

/-- The decimal text of an integer: its digits, after a `-` when it is
negative. -/
def decimalText (n : Int) : tstring :=
  if n < 0 then '-' :: Nat.toDigits 10 n.natAbs else Nat.toDigits 10 n.toNat

/-- The text starts, after optional whitespace, with a decimal number: a
sign `+` or `-` or none, then a non-empty run of digits, as long as it
goes; `negative` tells whether the sign is `-`, `magnitude` is the value of
the digits and `rest` is what follows the number. -/
def StartsWithNumber (text : tstring) (negative : Bool) (magnitude : Nat)
    (rest : tstring) : Prop :=
  ∃ ws sign digits : tstring,
    text = ws ++ sign ++ digits ++ rest
    ∧ (∀ c ∈ ws, is_space c = true)
    ∧ (sign = [] ∨ sign = ['+'] ∨ sign = ['-'])
    ∧ digits ≠ []
    ∧ (∀ c ∈ digits, c.isDigit = true)
    ∧ (∀ c, rest.head? = some c → c.isDigit = false)
    ∧ negative = (sign == ['-'])
    ∧ magnitude = decimalValue digits

/-- The number with sign `negative` and digits worth `magnitude`. -/
def signedValue (negative : Bool) (magnitude : Nat) : Int :=
  if negative then -(magnitude : Int) else (magnitude : Int)

/-- The numbers the extraction into a type takes: for a signed type those in
the range of the type; for an unsigned type those whose digits give at most
the largest value of the type, with either sign. -/
def Accepted (isSigned : Bool) (bits : Nat) (negative : Bool) (magnitude : Nat) : Prop :=
  if isSigned then InRange true bits (signedValue negative magnitude)
  else magnitude ≤ 2 ^ bits - 1

instance (isSigned : Bool) (bits : Nat) (negative : Bool) (magnitude : Nat) :
    Decidable (Accepted isSigned bits negative magnitude) := by
  unfold Accepted
  infer_instance

/-- The value stored for an accepted number: the number itself, and for an
unsigned type and a `-` sign the number modulo `2 ^ bits`. -/
def storedValue (isSigned : Bool) (bits : Nat) (negative : Bool) (magnitude : Nat) : Int :=
  if isSigned then signedValue negative magnitude
  else if negative then (((2 ^ bits - magnitude) % 2 ^ bits : Nat) : Int)
  else (magnitude : Int)

/-! ## Lemmas on the store -/

theorem find_assign (data : StringMap) (key value k : tstring) :
    (data.assign key value).find k = if key = k then some value else data.find k := by
  induction data with
  | nil => simp [StringMap.assign, StringMap.find]
  | cons hd tl ih =>
    obtain ⟨k0, v0⟩ := hd
    unfold StringMap.assign
    by_cases h1 : k0 = key
    · subst h1
      simp only [if_true, StringMap.find]
      by_cases h3 : k0 = k <;> simp [h3]
    · simp only [h1, if_false]
      by_cases h2 : tstring_lt key k0 = true
      · simp only [h2, if_true, StringMap.find]
      · simp only [h2, StringMap.find, ih]
        by_cases h3 : k0 = k
        · have h4 : ¬ key = k := fun h => h1 (h3.trans h.symm)
          simp [h3, h4]
        · simp [h3]

theorem find_setProperty (data : StringMap) (key value k : tstring) :
    (setProperty data key value).find k
      = if key = k then some value else data.find k :=
  find_assign data key value k

theorem find_isSome_iff_mem (data : StringMap) (k : tstring) :
    (data.find k).isSome = true ↔ k ∈ propertyNames data := by
  induction data with
  | nil => simp [StringMap.find, propertyNames]
  | cons hd tl ih =>
    obtain ⟨k0, v0⟩ := hd
    unfold StringMap.find
    by_cases h : k0 = k
    · simp [h, propertyNames]
    · have h2 : ¬ k = k0 := fun e => h e.symm
      simp only [h, if_false, ih]
      simp [propertyNames, h2]

/-- Folding the loop body of `getPropertySubset` over a list of keys. -/
theorem find_subset_fold (data : StringMap) (pre k : tstring) (keys : List tstring)
    (ret : StringMap) :
    (keys.foldl
      (fun ret key =>
        if key.take pre.length = pre then
          setProperty ret (key.drop pre.length) (getProperty data key)
        else ret) ret).find k
      = if pre ++ k ∈ keys then some (getProperty data (pre ++ k)) else ret.find k := by
  induction keys generalizing ret with
  | nil => simp
  | cons key rest ih =>
    simp only [List.foldl_cons, ih, List.mem_cons]
    by_cases hin : pre ++ k ∈ rest
    · simp [hin]
    · simp only [hin, if_false, or_false]
      by_cases hk : pre ++ k = key
      · subst hk
        simp [find_setProperty]
      · simp only [hk, if_false]
        by_cases hp : key.take pre.length = pre
        · simp only [hp, if_true, find_setProperty]
          have hne : ¬ key.drop pre.length = k := by
            intro e
            apply hk
            rw [← e]
            calc pre ++ key.drop pre.length
                = key.take pre.length ++ key.drop pre.length := by rw [hp]
              _ = key := List.take_append_drop _ _
          simp [hne]
        · simp [hp]

/-! ## One iteration of the loop of `substVars` -/

theorem loop_done (val : tstring) (props : StringMap) (env : Env) (ev sh re : Bool)
    (fuel : Nat) (pattern : tstring) (i : Nat) (changed : Bool)
    (h : find pattern DELIM_START i = none) :
    substVarsLoop val props env ev sh re (fuel + 1) pattern i changed
      = some ⟨pattern, changed, []⟩ := by
  simp only [substVarsLoop, h]

theorem loop_unterminated (val : tstring) (props : StringMap) (env : Env)
    (ev sh re : Bool) (fuel : Nat) (pattern : tstring) (i : Nat) (changed : Bool)
    (var_start : Nat) (h1 : find pattern DELIM_START i = some var_start)
    (h2 : find pattern DELIM_STOP var_start = none) :
    substVarsLoop val props env ev sh re (fuel + 1) pattern i changed
      = some ⟨val, false, [(noClosingBraceMsg pattern var_start, false)]⟩ := by
  simp only [substVarsLoop, h1, h2]

theorem loop_skip (val : tstring) (props : StringMap) (env : Env)
    (sh re : Bool) (fuel : Nat) (pattern : tstring) (i : Nat) (changed : Bool)
    (var_start var_end : Nat) (h1 : find pattern DELIM_START i = some var_start)
    (h2 : find pattern DELIM_STOP var_start = some var_end)
    (h3 : lookupReplacement props env false sh
      (substr pattern (var_start + 2) (var_end - (var_start + 2))) = []) :
    substVarsLoop val props env false sh re (fuel + 1) pattern i changed
      = substVarsLoop val props env false sh re fuel pattern (var_end + 1) changed := by
  simp only [substVarsLoop, h1, h2, DELIM_START_LEN, DELIM_STOP_LEN, h3]
  simp

theorem loop_replace (val : tstring) (props : StringMap) (env : Env)
    (ev sh re : Bool) (fuel : Nat) (pattern : tstring) (i : Nat) (changed : Bool)
    (var_start var_end : Nat) (r : tstring)
    (h1 : find pattern DELIM_START i = some var_start)
    (h2 : find pattern DELIM_STOP var_start = some var_end)
    (h3 : lookupReplacement props env ev sh
      (substr pattern (var_start + 2) (var_end - (var_start + 2))) = r)
    (h4 : ev = true ∨ r ≠ []) :
    substVarsLoop val props env ev sh re (fuel + 1) pattern i changed
      = substVarsLoop val props env ev sh re fuel
          (replace pattern var_start (var_end - var_start + 1) r)
          (if re then i else var_start + r.length) true := by
  have h5 : (ev || !r.isEmpty) = true := by
    rcases h4 with h | h
    · simp [h]
    · cases r with
      | nil => exact absurd rfl h
      | cons a t => simp
  simp only [substVarsLoop, h1, h2, DELIM_START_LEN, DELIM_STOP_LEN, h3, h5, if_true]
  cases re <;> simp

/-- Every result of the loop that carries an error report is the
unterminated-variable result. -/
theorem loop_errors (val : tstring) (props : StringMap) (env : Env) (ev sh re : Bool)
    (fuel : Nat) : ∀ (pattern : tstring) (i : Nat) (changed : Bool) (r : SubstResult),
    substVarsLoop val props env ev sh re fuel pattern i changed = some r →
    r.errors = [] ∨ ∃ p vs, find p DELIM_STOP vs = none
      ∧ r = ⟨val, false, [(noClosingBraceMsg p vs, false)]⟩ := by
  induction fuel with
  | zero => intro pattern i changed r h; simp [substVarsLoop] at h
  | succ n ih =>
    intro pattern i changed r h
    unfold substVarsLoop at h
    split at h
    · injection h with h; subst h; exact Or.inl rfl
    · rename_i vs h1
      split at h
      · rename_i h2
        injection h with h; subst h
        exact Or.inr ⟨pattern, vs, h2, rfl⟩
      · simp only at h
        split at h
        · split at h
          · exact ih _ _ _ _ h
          · exact ih _ _ _ _ h
        · exact ih _ _ _ _ h

/-- C2 (counterexample): with `flags = 0` the store is not consulted; with
`k` unset in the environment the reference stays and the call returns
`false`. -/
theorem substVars_store_ignored_without_shadow :
    substVars 2 "Value is $\x7bk\x7d".toList [("k".toList, "v".toList)] (fun _ => none) 0
      = some ⟨"Value is $\x7bk\x7d".toList, false, []⟩ := by
  decide

/-- C2 (amended): on `"Value is ${k}"` the call sets `dest` to
`"Value is v"` and returns `true` with `flags = 0` when the environment has
`k = "v"`, and with `flags = fShadowEnvironment` when the store has
`k -> "v"`. -/
theorem substVars_value_is_k (fuel : Nat) (props : StringMap) (env : Env) (flags : Nat)
    (h : (flags = 0 ∧ env "k".toList = some "v".toList)
      ∨ (flags = fShadowEnvironment ∧ getProperty props "k".toList = "v".toList)) :
    substVars (fuel + 2) "Value is $\x7bk\x7d".toList props env flags
      = some ⟨"Value is v".toList, true, []⟩ := by
  have hk : substr "Value is $\x7bk\x7d".toList (9 + 2) (12 - (9 + 2)) = "k".toList := by
    decide
  rcases h with ⟨hf, he⟩ | ⟨hf, hp⟩
  · subst hf
    have h3 : lookupReplacement props env false false
        (substr "Value is $\x7bk\x7d".toList (9 + 2) (12 - (9 + 2))) = "v".toList := by
      rw [hk]; unfold lookupReplacement get_env_var; rw [he]; rfl
    show substVarsLoop _ props env false false false (fuel + 1 + 1) _ 0 false = _
    rw [loop_replace _ _ _ _ _ _ _ _ _ _ 9 12 "v".toList (by decide) (by decide) h3
      (Or.inr (by decide))]
    exact loop_done _ _ _ _ _ _ _ _ _ _ (by decide)
  · subst hf
    have h3 : lookupReplacement props env false true
        (substr "Value is $\x7bk\x7d".toList (9 + 2) (12 - (9 + 2))) = "v".toList := by
      rw [hk]; unfold lookupReplacement; simp only [if_true, hp]; rfl
    show substVarsLoop _ props env false true false (fuel + 1 + 1) _ 0 false = _
    rw [loop_replace _ _ _ _ _ _ _ _ _ _ 9 12 "v".toList (by decide) (by decide) h3
      (Or.inr (by decide))]
    exact loop_done _ _ _ _ _ _ _ _ _ _ (by decide)

theorem substVars_value_is_k_witness :
    substVars 2 "Value is $\x7bk\x7d".toList [("k".toList, "v".toList)] (fun _ => none)
        fShadowEnvironment
      = some ⟨"Value is v".toList, true, []⟩ :=
  substVars_value_is_k 0 [("k".toList, "v".toList)] (fun _ => none) fShadowEnvironment
    (Or.inr ⟨rfl, by decide⟩)

/-- C3: whenever the loop of `substVars` finds a `${` with no `}` after it,
the call ends at once with `dest = val`, the result `false` and exactly one
report to the error sink, which is not fatal, whatever was replaced before;
and a call that reports anything ends this way. -/
theorem substVars_unterminated (val : tstring) (props : StringMap) (env : Env)
    (flags : Nat) :
    (∀ (fuel : Nat) (pattern : tstring) (i : Nat) (changed : Bool) (var_start : Nat),
      find pattern DELIM_START i = some var_start →
      find pattern DELIM_STOP var_start = none →
      substVarsLoop val props env (testFlag flags fAllowEmptyVars)
          (testFlag flags fShadowEnvironment) (testFlag flags fRecursiveExpansion)
          (fuel + 1) pattern i changed
        = some ⟨val, false, [(noClosingBraceMsg pattern var_start, false)]⟩)
    ∧ (∀ (fuel : Nat) (r : SubstResult), substVars fuel val props env flags = some r →
        r.errors = [] ∨ ∃ msg, r = ⟨val, false, [(msg, false)]⟩) := by
  refine ⟨?_, ?_⟩
  · intro fuel pattern i changed var_start h1 h2
    exact loop_unterminated _ _ _ _ _ _ _ _ _ _ _ h1 h2
  · intro fuel r h
    rcases loop_errors _ _ _ _ _ _ _ _ _ _ _ h with h | ⟨p, vs, _, h⟩
    · exact Or.inl h
    · exact Or.inr ⟨_, h⟩

theorem substVars_unterminated_witness :
    find "v$\x7bB".toList DELIM_START 1 = some 1
    ∧ find "v$\x7bB".toList DELIM_STOP 1 = none
    ∧ substVarsLoop "$\x7bA\x7d$\x7bB".toList [("A".toList, "v".toList)]
          (fun _ => none) (testFlag 2 fAllowEmptyVars) (testFlag 2 fShadowEnvironment)
          (testFlag 2 fRecursiveExpansion) (0 + 1) "v$\x7bB".toList 1 true
        = some ⟨"$\x7bA\x7d$\x7bB".toList, false,
            [(noClosingBraceMsg "v$\x7bB".toList 1, false)]⟩
    ∧ substVars 2 "$\x7bA\x7d$\x7bB".toList [("A".toList, "v".toList)] (fun _ => none) 2
        = some ⟨"$\x7bA\x7d$\x7bB".toList, false,
            [("\"v$\x7bB\" has no closing brace. Opening brace at position 1.".toList,
              false)]⟩ :=
  ⟨by decide, by decide,
    (substVars_unterminated "$\x7bA\x7d$\x7bB".toList [("A".toList, "v".toList)]
      (fun _ => none) 2).1 0 "v$\x7bB".toList 1 true 1 (by decide) (by decide),
    by decide⟩

/-- C5 (counterexample): with `flags = 0` a reference to a variable that
has no value is left in place; nothing is replaced by the empty text. -/
theorem substVars_inexistentKey_flags0 :
    substVars 2 "Value of inexistentKey is [$\x7binexistentKey\x7d]".toList []
        (fun _ => none) 0
      = some ⟨"Value of inexistentKey is [$\x7binexistentKey\x7d]".toList, false, []⟩ := by
  decide

/-- C5 (amended): when the allow-empty bit `fAllowEmptyVars` is set and
neither the environment nor the store has `inexistentKey`, the call
replaces the reference by the empty text and `dest` is
`"Value of inexistentKey is []"`. -/
theorem substVars_inexistentKey_allow_empty (fuel : Nat) (props : StringMap) (env : Env)
    (flags : Nat) (hflag : testFlag flags fAllowEmptyVars = true)
    (henv : env "inexistentKey".toList = none)
    (hprops : props.find "inexistentKey".toList = none) :
    substVars (fuel + 2) "Value of inexistentKey is [$\x7binexistentKey\x7d]".toList
        props env flags
      = some ⟨"Value of inexistentKey is []".toList, true, []⟩ := by
  have hk : substr "Value of inexistentKey is [$\x7binexistentKey\x7d]".toList (27 + 2)
      (42 - (27 + 2)) = "inexistentKey".toList := by decide
  have h3 : lookupReplacement props env true (testFlag flags fShadowEnvironment)
      (substr "Value of inexistentKey is [$\x7binexistentKey\x7d]".toList (27 + 2)
        (42 - (27 + 2))) = [] := by
    rw [hk]
    unfold lookupReplacement get_env_var getProperty
    rw [henv, hprops]
    cases testFlag flags fShadowEnvironment <;> rfl
  unfold substVars
  rw [hflag, loop_replace _ _ _ _ _ _ _ _ _ _ 27 42 [] (by decide) (by decide) h3
    (Or.inl rfl)]
  cases testFlag flags fRecursiveExpansion
  · exact loop_done _ _ _ _ _ _ _ _ _ _ (by decide)
  · exact loop_done _ _ _ _ _ _ _ _ _ _ (by decide)

theorem substVars_inexistentKey_allow_empty_witness :
    substVars 2 "Value of inexistentKey is [$\x7binexistentKey\x7d]".toList []
        (fun _ => none) fAllowEmptyVars
      = some ⟨"Value of inexistentKey is []".toList, true, []⟩ :=
  substVars_inexistentKey_allow_empty 0 [] (fun _ => none) fAllowEmptyVars
    (by decide) rfl rfl

/-- C6: the text `substVars` takes as the replacement of `${name}`:
(a) shadow bit unset: the environment value, whatever the store holds;
(b) shadow bit set and a non-empty store value: that value, whatever the
environment holds; (c) shadow bit set, store value absent or empty,
allow-empty bit unset: the environment value; (d) shadow bit set, store
value absent or empty, allow-empty bit set: the empty text, whatever the
environment holds. -/
theorem lookupReplacement_resolution (name : tstring) (props : StringMap) (env : Env)
    (flags : Nat) :
    (testFlag flags fShadowEnvironment = false →
      ∀ props2 : StringMap,
        lookupReplacement props2 env (testFlag flags fAllowEmptyVars)
          (testFlag flags fShadowEnvironment) name = (env name).getD [])
    ∧ (testFlag flags fShadowEnvironment = true → getProperty props name ≠ [] →
      ∀ env2 : Env,
        lookupReplacement props env2 (testFlag flags fAllowEmptyVars)
          (testFlag flags fShadowEnvironment) name = getProperty props name)
    ∧ (testFlag flags fShadowEnvironment = true → getProperty props name = [] →
      testFlag flags fAllowEmptyVars = false →
        lookupReplacement props env (testFlag flags fAllowEmptyVars)
          (testFlag flags fShadowEnvironment) name = (env name).getD [])
    ∧ (testFlag flags fShadowEnvironment = true → getProperty props name = [] →
      testFlag flags fAllowEmptyVars = true →
      ∀ env2 : Env,
        lookupReplacement props env2 (testFlag flags fAllowEmptyVars)
          (testFlag flags fShadowEnvironment) name = []) := by
  refine ⟨?_, ?_, ?_, ?_⟩
  · intro hs props2
    rw [hs]
    unfold lookupReplacement get_env_var
    cases env name <;> simp
  · intro hs hne env2
    rw [hs]
    unfold lookupReplacement
    cases hg : getProperty props name with
    | nil => exact absurd hg hne
    | cons a t => simp
  · intro hs he ha
    rw [hs, ha]
    unfold lookupReplacement get_env_var
    rw [he]
    cases env name <;> simp
  · intro hs he ha env2
    rw [hs, ha]
    unfold lookupReplacement
    rw [he]
    simp

theorem lookupReplacement_resolution_witness :
    lookupReplacement [("a".toList, "s".toList)]
        (fun n => if n = "a".toList then some "e".toList else none)
        (testFlag 0 fAllowEmptyVars) (testFlag 0 fShadowEnvironment) "a".toList
      = "e".toList
    ∧ lookupReplacement [("a".toList, "s".toList)]
        (fun n => if n = "a".toList then some "e".toList else none)
        (testFlag 2 fAllowEmptyVars) (testFlag 2 fShadowEnvironment) "a".toList
      = "s".toList
    ∧ lookupReplacement [] (fun n => if n = "a".toList then some "e".toList else none)
        (testFlag 2 fAllowEmptyVars) (testFlag 2 fShadowEnvironment) "a".toList
      = "e".toList
    ∧ lookupReplacement [] (fun n => if n = "a".toList then some "e".toList else none)
        (testFlag 6 fAllowEmptyVars) (testFlag 6 fShadowEnvironment) "a".toList
      = [] :=
  ⟨(lookupReplacement_resolution "a".toList []
      (fun n => if n = "a".toList then some "e".toList else none) 0).1 (by decide) _,
    (lookupReplacement_resolution "a".toList [("a".toList, "s".toList)]
      (fun _ => none) 2).2.1 (by decide) (by decide) _,
    (lookupReplacement_resolution "a".toList []
      (fun n => if n = "a".toList then some "e".toList else none) 2).2.2.1
      (by decide) (by decide) (by decide),
    (lookupReplacement_resolution "a".toList [] (fun _ => none) 6).2.2.2
      (by decide) (by decide) (by decide) _⟩

/-- C9: for a non-empty path that does not open, the constructor reports
`"could not open file " + path` with `fatal` equal to the `fThrow` bit of
the flags: with the bit set the sink raises, with the bit unset the
construction completes and the store is empty. -/
theorem PropertiesFromFile_open_failure (fuel : Nat) (fs : FS) (env : Env)
    (path : tstring) (flags : Nat) (hne : path ≠ []) (hfail : fs path = none) :
    PropertiesFromFile fuel fs env path flags
      = if testFlag flags fThrow then some (.raised [(couldNotOpenMsg path, true)])
        else some (.completed [] [(couldNotOpenMsg path, false)]) := by
  unfold PropertiesFromFile
  have h1 : path.isEmpty = false := by
    cases path with
    | nil => exact absurd rfl hne
    | cons a t => rfl
  simp only [h1, imbue_file_from_flags, hfail, Option.isNone_none, if_true, logError]
  cases testFlag flags fThrow
  · cases fuel <;> simp [init]
  · simp

theorem PropertiesFromFile_open_failure_witness :
    PropertiesFromFile 1 (fun _ => none) (fun _ => none) "xxx does not exist".toList fThrow
        = some (.raised [(couldNotOpenMsg "xxx does not exist".toList, true)])
    ∧ PropertiesFromFile 1 (fun _ => none) (fun _ => none) "xxx does not exist".toList 0
        = some (.completed [] [(couldNotOpenMsg "xxx does not exist".toList, false)]) :=
  ⟨PropertiesFromFile_open_failure 1 (fun _ => none) (fun _ => none)
      "xxx does not exist".toList fThrow (by decide) rfl,
    by decide⟩

/-- C10: the subset for prefix `p` has key `k` exactly when the store has
key `p ++ k`, with the same value (so a key equal to `p` shows as the empty
key, and keys that do not start with `p` give nothing); for prefix `"a."`
the store with `a.b -> x` and `c -> y` gives the store with `b -> x`. -/
theorem getPropertySubset_spec (s : StringMap) (p k : tstring) :
    (getPropertySubset s p).find k = s.find (p ++ k)
    ∧ exists_ (getPropertySubset s p) k = exists_ s (p ++ k)
    ∧ getProperty (getPropertySubset s p) k = getProperty s (p ++ k)
    ∧ getPropertySubset [("a.b".toList, "x".toList), ("c".toList, "y".toList)] "a.".toList
        = [("b".toList, "x".toList)] := by
  have h : (getPropertySubset s p).find k = s.find (p ++ k) := by
    unfold getPropertySubset
    simp only [find_subset_fold]
    by_cases hin : p ++ k ∈ propertyNames s
    · have h2 := (find_isSome_iff_mem s (p ++ k)).2 hin
      simp only [hin, if_true, getProperty]
      cases hf : s.find (p ++ k) with
      | none => rw [hf] at h2; simp at h2
      | some v => rfl
    · simp only [hin, if_false, StringMap.find]
      cases hf : s.find (p ++ k) with
      | none => rfl
      | some v =>
        exfalso
        apply hin
        apply (find_isSome_iff_mem s (p ++ k)).1
        rw [hf]; rfl
  refine ⟨h, ?_, ?_, by decide⟩
  · unfold exists_; rw [h]
  · unfold getProperty; rw [h]

/-! ## Lemmas on `find` -/

theorem findAux_bounds (needle : tstring) (hay : tstring) (idx p : Nat)
    (h : findAux needle hay idx = some p) : idx ≤ p ∧ p < idx + hay.length := by
  induction hay generalizing idx with
  | nil => simp [findAux] at h
  | cons c cs ih =>
    unfold findAux at h
    split at h
    · injection h with h; subst h; simp
    · have := ih _ h
      simp only [List.length_cons]
      omega

theorem find_bounds (str needle : tstring) (pos p : Nat)
    (h : find str needle pos = some p) : pos ≤ p ∧ p < str.length := by
  unfold find at h
  have hb := findAux_bounds _ _ _ _ h
  rw [List.length_drop] at hb
  omega

theorem findAux_char (c : Char) (hay : tstring) (idx : Nat) :
    findAux [c] hay idx
      = if c ∈ hay then some (idx + (hay.takeWhile (fun x => x != c)).length) else none := by
  induction hay generalizing idx with
  | nil => simp [findAux]
  | cons a cs ih =>
    unfold findAux
    by_cases hac : a = c
    · subst hac
      simp [List.isPrefixOf]
    · have hca : ¬ c = a := fun e => hac e.symm
      simp only [List.isPrefixOf, beq_iff_eq, hca, Bool.and_true, Bool.false_and, ih,
        List.mem_cons, false_or, List.takeWhile_cons, bne_iff_ne, ne_eq, hac,
        not_false_eq_true, decide_True, if_true, List.length_cons]
      simp only [Bool.false_eq_true, if_false]
      split
      · congr 1; omega
      · rfl

theorem find_char_zero (c : Char) (str : tstring) (h : c ∈ str) :
    find str [c] 0 = some (str.takeWhile (fun x => x != c)).length := by
  unfold find
  rw [List.drop_zero, findAux_char, if_pos h, Nat.zero_add]

theorem find_char_zero_none (c : Char) (str : tstring) (h : c ∉ str) :
    find str [c] 0 = none := by
  unfold find
  rw [List.drop_zero, findAux_char, if_neg h]

theorem length_replace (str : tstring) (pos n : Nat) (r : tstring)
    (h : pos + n ≤ str.length) :
    (replace str pos n r).length = str.length - n + r.length := by
  unfold replace
  simp only [List.length_append, List.length_take, List.length_drop]
  omega

/-! ## Termination of the loop of `substVars` -/

/-- Without the recursive-expansion flag the loop returns within
`pattern.size () - i + 1` iterations. -/
theorem loop_terminates_norec (val : tstring) (props : StringMap) (env : Env)
    (ev sh : Bool) (fuel : Nat) :
    ∀ (pattern : tstring) (i : Nat) (changed : Bool),
      i ≤ pattern.length → pattern.length - i + 1 ≤ fuel →
      ∃ r, substVarsLoop val props env ev sh false fuel pattern i changed = some r := by
  induction fuel with
  | zero => intro pattern i changed _ h; omega
  | succ n ih =>
    intro pattern i changed hi hf
    unfold substVarsLoop
    split
    · exact ⟨_, rfl⟩
    · rename_i vs h1
      split
      · exact ⟨_, rfl⟩
      · rename_i ve h2
        have b1 := find_bounds _ _ _ _ h1
        have b2 := find_bounds _ _ _ _ h2
        simp only [DELIM_STOP_LEN, DELIM_START_LEN]
        split
        · simp only [Bool.false_eq_true, if_false]
          apply ih
          · rw [length_replace _ _ _ _ (by omega)]; omega
          · rw [length_replace _ _ _ _ (by omega)]; omega
        · apply ih
          · omega
          · omega

/-- When no variable has a non-empty value and empty values are not
substituted, the loop leaves `pattern` and `changed` alone. -/
theorem loop_nothing_to_replace (val : tstring) (props : StringMap) (env : Env)
    (sh re : Bool) (hnone : ∀ name, lookupReplacement props env false sh name = [])
    (fuel : Nat) :
    ∀ (pattern : tstring) (i : Nat) (changed : Bool),
      i ≤ pattern.length → pattern.length - i + 1 ≤ fuel →
      substVarsLoop val props env false sh re fuel pattern i changed
          = some ⟨pattern, changed, []⟩
        ∨ ∃ msg, substVarsLoop val props env false sh re fuel pattern i changed
          = some ⟨val, false, [(msg, false)]⟩ := by
  induction fuel with
  | zero => intro pattern i changed _ h; omega
  | succ n ih =>
    intro pattern i changed hi hf
    cases h1 : find pattern DELIM_START i with
    | none => exact Or.inl (loop_done _ _ _ _ _ _ _ _ _ _ h1)
    | some vs =>
      cases h2 : find pattern DELIM_STOP vs with
      | none => exact Or.inr ⟨_, loop_unterminated _ _ _ _ _ _ _ _ _ _ _ h1 h2⟩
      | some ve =>
        have b1 := find_bounds _ _ _ _ h1
        have b2 := find_bounds _ _ _ _ h2
        rw [loop_skip _ _ _ _ _ _ _ _ _ _ _ h1 h2 (hnone _)]
        exact ih _ _ _ (by omega) (by omega)

/-- C4: when the allow-empty bit is unset and neither the store nor the
environment has a non-empty value for any name, `substVars` returns with
`dest = val` and the result `false`, for every input and every value of
the other flags. -/
theorem substVars_nothing_to_replace (val : tstring) (props : StringMap) (env : Env)
    (flags fuel : Nat) (hflag : testFlag flags fAllowEmptyVars = false)
    (hprops : ∀ name, getProperty props name = [])
    (henv : ∀ name, env name = none ∨ env name = some [])
    (hfuel : val.length + 1 ≤ fuel) :
    ∃ r, substVars fuel val props env flags = some r ∧ r.dest = val ∧ r.changed = false := by
  have hnone : ∀ name, lookupReplacement props env false
      (testFlag flags fShadowEnvironment) name = [] := by
    intro name
    unfold lookupReplacement get_env_var
    rw [hprops name]
    rcases henv name with h | h <;> rw [h] <;>
      cases testFlag flags fShadowEnvironment <;> rfl
  unfold substVars
  rw [hflag]
  rcases loop_nothing_to_replace val props env _ (testFlag flags fRecursiveExpansion)
      hnone fuel val 0 false (Nat.zero_le _) (by omega) with h | ⟨msg, h⟩
  · exact ⟨_, h, rfl, rfl⟩
  · exact ⟨_, h, rfl, rfl⟩

theorem substVars_nothing_to_replace_witness :
    ∃ r, substVars 20 "Value is $\x7bmissing\x7d".toList [] (fun _ => none) 0 = some r
      ∧ r.dest = "Value is $\x7bmissing\x7d".toList ∧ r.changed = false :=
  substVars_nothing_to_replace "Value is $\x7bmissing\x7d".toList [] (fun _ => none) 0 20
    (by decide) (fun _ => rfl) (fun _ => Or.inl rfl) (by decide)

/-! ## Lemmas on trimming -/

theorem trim_trailing_ws_eq (s : tstring) :
    trim_trailing_ws s = s.rdropWhile is_space := rfl

theorem trim_trailing_ws_concat_space (x : tstring) (c : Char) (h : is_space c = true) :
    trim_trailing_ws (x ++ [c]) = trim_trailing_ws x := by
  rw [trim_trailing_ws_eq, trim_trailing_ws_eq, List.rdropWhile_concat_pos _ _ _ h]

theorem trim_ws_concat_space (x : tstring) (c : Char) (h : is_space c = true) :
    trim_ws (x ++ [c]) = trim_ws x := by
  unfold trim_ws
  rw [trim_trailing_ws_concat_space x c h]

theorem trim_trailing_ws_cons (c : Char) (t : tstring) :
    trim_trailing_ws (c :: t)
      = if trim_trailing_ws t = [] then (if is_space c = true then [] else [c])
        else c :: trim_trailing_ws t := by
  simp only [trim_trailing_ws_eq]
  induction t using List.reverseRecOn with
  | nil => simp [List.rdropWhile_singleton]
  | append_singleton t a ih =>
    rw [← List.cons_append, List.rdropWhile_concat, List.rdropWhile_concat]
    by_cases ha : is_space a = true
    · simp only [ha, if_true]; exact ih
    · simp [ha]

theorem trim_ws_cons_space (c : Char) (t : tstring) (h : is_space c = true) :
    trim_ws (c :: t) = trim_ws t := by
  unfold trim_ws
  rw [trim_trailing_ws_cons]
  by_cases ht : trim_trailing_ws t = []
  · simp [ht, h, trim_leading_ws]
  · simp [ht, h, trim_leading_ws]

theorem trim_ws_of_head (t : tstring)
    (h : ∀ c, t.head? = some c → is_space c = false) :
    trim_ws t = trim_trailing_ws t := by
  cases t with
  | nil => rfl
  | cons c t =>
    have hc : is_space c = false := h c rfl
    unfold trim_ws
    rw [trim_trailing_ws_cons]
    by_cases ht : trim_trailing_ws t = []
    · simp [ht, hc, trim_leading_ws]
    · simp [ht, hc, trim_leading_ws]

/-! ## Lemmas on `takeWhile` and `dropWhile` -/

theorem take_length_takeWhile (p : Char → Bool) (l : tstring) :
    l.take (l.takeWhile p).length = l.takeWhile p := by
  induction l with
  | nil => rfl
  | cons a t ih =>
    by_cases h : p a = true
    · simp [List.takeWhile_cons, h, ih]
    · simp [List.takeWhile_cons, h]

theorem drop_length_takeWhile (p : Char → Bool) (l : tstring) :
    l.drop (l.takeWhile p).length = l.dropWhile p := by
  induction l with
  | nil => rfl
  | cons a t ih =>
    by_cases h : p a = true
    · simp [List.takeWhile_cons, List.dropWhile_cons, h, ih]
    · simp [List.takeWhile_cons, List.dropWhile_cons, h]

theorem takeWhile_append_of_mem (p : Char → Bool) (l₁ l₂ : tstring)
    (h : ∃ a ∈ l₁, p a = false) :
    (l₁ ++ l₂).takeWhile p = l₁.takeWhile p
      ∧ (l₁ ++ l₂).dropWhile p = l₁.dropWhile p ++ l₂ := by
  induction l₁ with
  | nil => obtain ⟨a, ha, _⟩ := h; simp at ha
  | cons a t ih =>
    by_cases hp : p a = true
    · obtain ⟨x, hx, hpx⟩ := h
      have hx2 : x ∈ t := by
        rcases List.mem_cons.1 hx with e | e
        · subst e; rw [hp] at hpx; cases hpx
        · exact e
      have := ih ⟨x, hx2, hpx⟩
      simp [List.takeWhile_cons, List.dropWhile_cons, hp, this.1, this.2]
    · simp [List.takeWhile_cons, List.dropWhile_cons, hp]

theorem is_space_eq_false : is_space '=' = false := by decide

theorem ne_eq_of_is_space (c : Char) (h : is_space c = true) : (c != '=') = true := by
  by_cases e : c = '='
  · subst e; rw [is_space_eq_false] at h; cases h
  · simp [e]

/-! ## An assignment line in `init` -/

/-- The second half of the loop body on a buffer that has an `=` and does
not start with `include`. -/
theorem initLine_tail (data : StringMap) (b : tstring) (X : Option Loaded)
    (heq : '=' ∈ b) (hinc : b.take 7 ≠ "include".toList) :
    (if (decide (b.length ≥ 7 + 1 + 1) && substr b 0 7 == "include".toList
          && is_space (b.getD 7 ' ')) = true then X
      else
        match find b ['='] 0 with
        | none => some ⟨data, []⟩
        | some idx =>
          some ⟨setProperty data (trim_trailing_ws (substr b 0 idx))
            (trim_ws (b.drop (idx + 1))), []⟩)
      = some ⟨setProperty data (trim_trailing_ws (b.takeWhile (fun c => c != '=')))
          (trim_ws ((b.dropWhile (fun c => c != '=')).drop 1)), []⟩ := by
  have h1 : (substr b 0 7 == "include".toList) = false := by
    simp only [substr, List.drop_zero, beq_eq_false_iff_ne, ne_eq]
    exact hinc
  rw [h1, Bool.and_false, Bool.false_and]
  simp only [Bool.false_eq_true, if_false]
  rw [find_char_zero _ _ heq]
  simp only [substr, List.drop_zero, take_length_takeWhile]
  rw [← List.drop_drop, drop_length_takeWhile]

theorem mem_dropWhile_of_mem (p : Char → Bool) (l : tstring) (a : Char)
    (ha : a ∈ l) (hpa : p a = false) : a ∈ l.dropWhile p := by
  have h := List.takeWhile_append_dropWhile p l
  rw [← h] at ha
  rcases List.mem_append.1 ha with h1 | h1
  · have := List.mem_takeWhile_imp h1
    rw [hpa] at this; cases this
  · exact h1

/-- Dropping a trailing `\r` from a buffer that has an `=` changes neither
the text before the first `=` nor, up to trimming, the text after it. -/
theorem strip_cr_facts (b b' : tstring) (hb : b' = b ∨ b = b' ++ ['\r'])
    (heq : '=' ∈ b) :
    '=' ∈ b'
    ∧ b'.takeWhile (fun c => c != '=') = b.takeWhile (fun c => c != '=')
    ∧ trim_ws ((b'.dropWhile (fun c => c != '=')).drop 1)
        = trim_ws ((b.dropWhile (fun c => c != '=')).drop 1) := by
  rcases hb with hb | hb
  · subst hb; exact ⟨heq, rfl, rfl⟩
  · subst hb
    have heq' : '=' ∈ b' := by
      rcases List.mem_append.1 heq with h | h
      · exact h
      · simp at h
    have hq : (fun c : Char => c != '=') '=' = false := by decide
    have h2 := takeWhile_append_of_mem (fun c => c != '=') b' ['\r'] ⟨'=', heq', hq⟩
    refine ⟨heq', h2.1.symm, ?_⟩
    rw [h2.2]
    have h3 := mem_dropWhile_of_mem (fun c => c != '=') b' '=' heq' hq
    cases hd : b'.dropWhile (fun c => c != '=') with
    | nil => rw [hd] at h3; simp at h3
    | cons x xs =>
      simp only [List.cons_append, List.drop_succ_cons, List.drop_zero]
      exact (trim_ws_concat_space xs '\r' (by decide)).symm

/-- Trimming the line at the front first, as `init` does, gives the key
and the value of the specification. -/
theorem leading_trim_facts (L : tstring) (heq : '=' ∈ L) :
    '=' ∈ trim_leading_ws L
    ∧ (∀ c, (trim_leading_ws L).head? = some c → is_space c = false)
    ∧ assignedKey L
        = trim_trailing_ws ((trim_leading_ws L).takeWhile (fun c => c != '='))
    ∧ assignedValue L
        = trim_ws (((trim_leading_ws L).dropWhile (fun c => c != '=')).drop 1) := by
  induction L with
  | nil => simp at heq
  | cons c t ih =>
    by_cases hc : is_space c = true
    · have hne : c ≠ '=' := by
        intro e; subst e; rw [is_space_eq_false] at hc; cases hc
      have ht : '=' ∈ t := by
        rcases List.mem_cons.1 heq with e | e
        · exact absurd e.symm hne
        · exact e
      have hq : (c != '=') = true := ne_eq_of_is_space c hc
      obtain ⟨i1, i2, i3, i4⟩ := ih ht
      have e1 : trim_leading_ws (c :: t) = trim_leading_ws t := by
        simp [trim_leading_ws, List.dropWhile_cons, hc]
      rw [e1]
      refine ⟨i1, i2, ?_, ?_⟩
      · rw [← i3]
        unfold assignedKey
        simp only [List.takeWhile_cons, hq, if_true]
        exact trim_ws_cons_space c _ hc
      · rw [← i4]
        unfold assignedValue
        simp only [List.dropWhile_cons, hq, if_true]
    · have hc' : is_space c = false := by simpa using hc
      have e1 : trim_leading_ws (c :: t) = c :: t := by
        simp [trim_leading_ws, List.dropWhile_cons, hc']
      rw [e1]
      refine ⟨heq, ?_, ?_, rfl⟩
      · intro x hx
        simp only [List.head?_cons, Option.some.injEq] at hx
        subst hx; exact hc'
      · unfold assignedKey
        apply trim_ws_of_head
        intro x hx
        by_cases hq : (c != '=') = true
        · simp only [List.takeWhile_cons, hq, if_true, List.head?_cons,
            Option.some.injEq] at hx
          subst hx; exact hc'
        · simp [List.takeWhile_cons, hq] at hx

theorem initLine_assignment (initRec : Option tstring → StringMap → Option Loaded)
    (fs : FS) (env : Env) (flags : Nat) (data : StringMap) (L : tstring)
    (h : PlainAssignment L) :
    initLine initRec fs env flags data L
      = some ⟨setProperty data (assignedKey L) (assignedValue L), []⟩ := by
  obtain ⟨heq, hhash, hinc⟩ := h
  obtain ⟨f1, f2, f3, f4⟩ := leading_trim_facts L heq
  have hsuf : trim_leading_ws L <:+ L := List.dropWhile_suffix _
  have hne : trim_leading_ws L ≠ [] := fun e => by rw [e] at f1; simp at f1
  have c1 : ((trim_leading_ws L).length == 0
      || (trim_leading_ws L).head? == some PROPERTIES_COMMENT_CHAR) = false := by
    cases hb : trim_leading_ws L with
    | nil => exact absurd hb hne
    | cons x xs =>
      have hx : x ∈ L := hsuf.subset (by rw [hb]; simp)
      have : x ≠ '#' := fun e => hhash (e ▸ hx)
      simp [PROPERTIES_COMMENT_CHAR, this]
  have key : ∀ b' : tstring, (b' = trim_leading_ws L ∨ trim_leading_ws L = b' ++ ['\r']) →
      ∀ X : Option Loaded,
      (if (decide (b'.length ≥ 7 + 1 + 1) && substr b' 0 7 == "include".toList
            && is_space (b'.getD 7 ' ')) = true then X
        else
          match find b' ['='] 0 with
          | none => some ⟨data, []⟩
          | some idx =>
            some ⟨setProperty data (trim_trailing_ws (substr b' 0 idx))
              (trim_ws (b'.drop (idx + 1))), []⟩)
        = some ⟨setProperty data (assignedKey L) (assignedValue L), []⟩ := by
    intro b' hb' X
    obtain ⟨g1, g2, g3⟩ := strip_cr_facts _ b' hb' f1
    have hpre : b' <+: trim_leading_ws L := by
      rcases hb' with e | e
      · rw [e]
      · rw [e]; exact List.prefix_append _ _
    have hni : b'.take 7 ≠ "include".toList := by
      intro e
      apply hinc
      rw [← e]
      exact ((List.take_prefix 7 b').trans hpre).isInfix.trans hsuf.isInfix
    rw [initLine_tail data b' X g1 hni, g2, g3, ← f3, ← f4]
  unfold initLine
  simp only [c1, Bool.false_eq_true, if_false]
  by_cases hcr : ((trim_leading_ws L).getLast? == some '\r') = true
  · simp only [hcr, if_true]
    apply key
    right
    have : (trim_leading_ws L).getLast? = some '\r' := by simpa using hcr
    rw [← List.dropLast_eq_take]
    exact (List.dropLast_append_getLast? _ this).symm
  · simp only [hcr, if_false]
    exact key _ (Or.inl rfl) _

/-! ## Lines of a stream -/

theorem getlines_single (L : tstring) (hne : L ≠ []) (hnl : '\n' ∉ L) :
    getlines L = [L] := by
  induction L with
  | nil => exact absurd rfl hne
  | cons c t ih =>
    have hc : c ≠ '\n' := fun e => hnl (by rw [e]; simp)
    have ht : '\n' ∉ t := fun h => hnl (List.mem_cons_of_mem _ h)
    unfold getlines
    rw [if_neg hc]
    cases t with
    | nil => rfl
    | cons d u => rw [ih (by simp) ht]

/-- C1: a stream made of one line `L` without newline that has an `=`, has
no `#` and does not contain the word `include` loads into a store with
exactly one property: its key is the text of `L` before the first `=` and
its value the text after it, both without the whitespace around them; no
error is reported. -/
theorem PropertiesFromStream_single_assignment (fuel : Nat) (fs : FS) (env : Env)
    (L : tstring) (hnl : '\n' ∉ L) (h : PlainAssignment L) :
    PropertiesFromStream (fuel + 1) fs env (some L)
        = some ⟨[(assignedKey L, assignedValue L)], []⟩
    ∧ propertyNames [(assignedKey L, assignedValue L)] = [assignedKey L]
    ∧ getProperty [(assignedKey L, assignedValue L)] (assignedKey L) = assignedValue L := by
  have hne : L ≠ [] := fun e => by
    have := h.1; rw [e] at this; simp at this
  refine ⟨?_, rfl, ?_⟩
  · unfold PropertiesFromStream init
    rw [getlines_single L hne hnl]
    simp only [initLines, initLine_assignment _ fs env 0 [] L h]
    rfl
  · simp [getProperty, StringMap.find]

theorem PropertiesFromStream_single_assignment_witness :
    PropertiesFromStream (0 + 1) (fun _ => none) (fun _ => none)
        (some "  a key = some = value \r".toList)
      = some ⟨[("a key".toList, "some = value".toList)], []⟩ := by
  have h := (PropertiesFromStream_single_assignment 0 (fun _ => none) (fun _ => none)
    "  a key = some = value \r".toList (by decide)
    ⟨by decide, by decide, by decide⟩).1
  have hk : assignedKey "  a key = some = value \r".toList = "a key".toList := by decide
  have hv : assignedValue "  a key = some = value \r".toList = "some = value".toList := by
    decide
  rw [hk, hv] at h
  exact h

/-! ## The loop of `init` over several lines -/

theorem initLines_cons (initRec : Option tstring → StringMap → Option Loaded)
    (fs : FS) (env : Env) (flags : Nat) (L : tstring) (rest : List tstring)
    (data : StringMap) :
    initLines initRec fs env flags (L :: rest) data
      = match initLine initRec fs env flags data L with
        | none => none
        | some r1 =>
          match initLines initRec fs env flags rest r1.data with
          | none => none
          | some r2 => some ⟨r2.data, r1.errors ++ r2.errors⟩ := rfl

theorem initLines_append (initRec : Option tstring → StringMap → Option Loaded)
    (fs : FS) (env : Env) (flags : Nat) (l1 l2 : List tstring) (data : StringMap) :
    initLines initRec fs env flags (l1 ++ l2) data
      = match initLines initRec fs env flags l1 data with
        | none => none
        | some r1 =>
          match initLines initRec fs env flags l2 r1.data with
          | none => none
          | some r2 => some ⟨r2.data, r1.errors ++ r2.errors⟩ := by
  induction l1 generalizing data with
  | nil =>
    rw [List.nil_append]
    show _ = match initLines initRec fs env flags l2 data with
      | none => none
      | some r2 => some ⟨r2.data, [] ++ r2.errors⟩
    cases initLines initRec fs env flags l2 data <;> rfl
  | cons L rest ih =>
    rw [List.cons_append, initLines_cons, initLines_cons]
    cases initLine initRec fs env flags data L with
    | none => rfl
    | some r1 =>
      simp only
      rw [ih]
      cases initLines initRec fs env flags rest r1.data with
      | none => rfl
      | some r2 =>
        simp only
        cases initLines initRec fs env flags l2 r2.data with
        | none => rfl
        | some r3 => simp only [List.append_assoc]

/-- The store after a run of assignment lines. -/
theorem initLines_assignments (initRec : Option tstring → StringMap → Option Loaded)
    (fs : FS) (env : Env) (flags : Nat) (lines : List tstring)
    (h : ∀ L ∈ lines, PlainAssignment L) (data : StringMap) :
    initLines initRec fs env flags lines data
      = some ⟨lines.foldl (fun d L => setProperty d (assignedKey L) (assignedValue L)) data,
          []⟩ := by
  induction lines generalizing data with
  | nil => rfl
  | cons L rest ih =>
    have hL := h L (by simp)
    have hrest : ∀ M ∈ rest, PlainAssignment M := fun M hM =>
      h M (List.mem_cons_of_mem _ hM)
    simp only [initLines, initLine_assignment _ fs env flags data L hL, ih hrest,
      List.foldl_cons, List.append_nil]

theorem lastAssignment_nil (k : tstring) : lastAssignment [] k = none := rfl

theorem lastAssignment_cons (L : tstring) (rest : List tstring) (k : tstring) :
    lastAssignment (L :: rest) k
      = match lastAssignment rest k with
        | some v => some v
        | none => if assignedKey L = k then some (assignedValue L) else none := by
  unfold lastAssignment
  rw [List.reverse_cons, List.find?_append]
  cases List.find? (fun L => assignedKey L == k) rest.reverse with
  | some M => rfl
  | none =>
    by_cases hk : assignedKey L = k
    · simp [hk]
    · simp [hk]

theorem find_foldl_assignments (lines : List tstring) (data : StringMap) (k : tstring) :
    (lines.foldl (fun d L => setProperty d (assignedKey L) (assignedValue L)) data).find k
      = match lastAssignment lines k with
        | some v => some v
        | none => data.find k := by
  induction lines generalizing data with
  | nil => rfl
  | cons L rest ih =>
    rw [List.foldl_cons, ih, lastAssignment_cons]
    cases lastAssignment rest k with
    | some v => rfl
    | none =>
      simp only [find_setProperty]
      by_cases hk : assignedKey L = k
      · simp [hk]
      · simp [hk]

theorem lastAssignment_isSome_of_mem (lines : List tstring) (L : tstring)
    (hL : L ∈ lines) : (lastAssignment lines (assignedKey L)).isSome = true := by
  induction lines with
  | nil => simp at hL
  | cons M rest ih =>
    rw [lastAssignment_cons]
    rcases List.mem_cons.1 hL with e | e
    · subst e
      cases lastAssignment rest (assignedKey L) <;> simp
    · have := ih e
      cases hl : lastAssignment rest (assignedKey L) with
      | none => rw [hl] at this; simp at this
      | some v => rfl

/-! ## An `include` line in `init` -/

/-- Without the shadow flag the store plays no part in `substVars`. -/
theorem substVarsLoop_props_irrelevant (val : tstring) (props props2 : StringMap)
    (env : Env) (ev re : Bool) (fuel : Nat) :
    ∀ (pattern : tstring) (i : Nat) (changed : Bool),
      substVarsLoop val props env ev false re fuel pattern i changed
        = substVarsLoop val props2 env ev false re fuel pattern i changed := by
  induction fuel with
  | zero => intro pattern i changed; rfl
  | succ n ih =>
    intro pattern i changed
    have hl : ∀ key, lookupReplacement props env ev false key
        = lookupReplacement props2 env ev false key := fun key => rfl
    unfold substVarsLoop
    simp only [hl, ih]

theorem substVars_flags0_props_irrelevant (fuel : Nat) (val : tstring)
    (props props2 : StringMap) (env : Env) :
    substVars fuel val props env 0 = substVars fuel val props2 env 0 := by
  unfold substVars
  have h : testFlag 0 fShadowEnvironment = false := by decide
  rw [h]
  exact substVarsLoop_props_irrelevant _ _ _ _ _ _ _ _ _ _

/-- With `flags = 0` the call made for an `include` line returns. -/
theorem substVars_flags0_returns (val : tstring) (props : StringMap) (env : Env) :
    ∃ sub, substVars (val.length + 1) val props env 0 = some sub := by
  unfold substVars
  have h : testFlag 0 fRecursiveExpansion = false := by decide
  rw [h]
  exact loop_terminates_norec _ _ _ _ _ _ _ _ _ (Nat.zero_le _) (by omega)

theorem trim_ws_of_ends (P : tstring)
    (hfirst : ∀ c, P.head? = some c → is_space c = false)
    (hlast : ∀ c, P.getLast? = some c → is_space c = false) :
    trim_ws P = P := by
  rw [trim_ws_of_head P hfirst, trim_trailing_ws_eq, List.rdropWhile_eq_self_iff]
  intro hl
  have := hlast _ (List.getLast?_eq_getLast _ hl)
  simp [this]

theorem initLine_include (initRec : Option tstring → StringMap → Option Loaded)
    (fs : FS) (env : Env) (flags : Nat) (data : StringMap) (P : tstring)
    (sub : SubstResult) (hP : P ≠ [])
    (hfirst : ∀ c, P.head? = some c → is_space c = false)
    (hlast : ∀ c, P.getLast? = some c → is_space c = false)
    (hsub : substVars (P.length + 1) P [] env 0 = some sub) :
    initLine initRec fs env flags data ("include ".toList ++ P)
      = match initRec (fs sub.dest) data with
        | none => none
        | some inner =>
          some ⟨inner.data,
            sub.errors
              ++ (if (fs sub.dest).isNone = true then [(couldNotOpenMsg sub.dest, false)]
                  else [])
              ++ inner.errors⟩ := by
  have hlit : "include ".toList = ['i', 'n', 'c', 'l', 'u', 'd', 'e', ' '] := rfl
  have e0 : trim_leading_ws ("include ".toList ++ P) = "include ".toList ++ P := by
    rw [hlit]
    simp [trim_leading_ws, List.dropWhile_cons, is_space]
  have hlastP : ∃ c, P.getLast? = some c := by
    cases hg : P.getLast? with
    | none => exact absurd (List.getLast?_eq_none_iff.1 hg) hP
    | some c => exact ⟨c, rfl⟩
  obtain ⟨cl, hcl⟩ := hlastP
  have hclr : cl ≠ '\r' := by
    intro e
    have := hlast cl hcl
    rw [e] at this
    exact absurd this (by decide)
  have e1 : (("include ".toList ++ P).getLast? == some '\r') = false := by
    rw [List.getLast?_append, hcl]
    simp [hclr]
  have hlen : P.length ≥ 1 := by
    cases P with
    | nil => exact absurd rfl hP
    | cons a t => simp
  have e2 : (decide (("include ".toList ++ P).length ≥ 7 + 1 + 1)
      && substr ("include ".toList ++ P) 0 7 == "include".toList
      && is_space (("include ".toList ++ P).getD 7 ' ')) = true := by
    rw [hlit]
    simp [substr, is_space]
    omega
  have e3 : ("include ".toList ++ P).drop 8 = P := by
    rw [hlit]; rfl
  unfold initLine
  simp only [e0, e1, e2, e3, Bool.false_eq_true, if_false, if_true,
    trim_ws_of_ends P hfirst hlast, imbue_file_from_flags]
  have hne : ((("include ".toList ++ P).length == 0)
      || (("include ".toList ++ P).head? == some PROPERTIES_COMMENT_CHAR)) = false := by
    rw [hlit]
    simp [PROPERTIES_COMMENT_CHAR]
  rw [hne, substVars_flags0_props_irrelevant _ _ data [] env, hsub]
  simp

/-! ## Reports made while loading -/

theorem init_failed_stream (fs : FS) (env : Env) (flags fuel : Nat) (data : StringMap) :
    init fs env flags fuel none data = some ⟨data, []⟩ := by
  cases fuel <;> rfl

theorem substVars_errors_nonfatal (fuel : Nat) (val : tstring) (props : StringMap)
    (env : Env) (flags : Nat) (sub : SubstResult)
    (h : substVars fuel val props env flags = some sub) :
    ∀ e ∈ sub.errors, e.2 = false := by
  intro e he
  rcases loop_errors _ _ _ _ _ _ _ _ _ _ _ h with h1 | ⟨p, vs, _, h1⟩
  · rw [h1] at he; simp at he
  · rw [h1] at he
    simp only [List.mem_singleton] at he
    rw [he]

theorem initLine_nonfatal (initRec : Option tstring → StringMap → Option Loaded)
    (hrec : ∀ input data r, initRec input data = some r → ∀ e ∈ r.errors, e.2 = false)
    (fs : FS) (env : Env) (flags : Nat) (data : StringMap) (L : tstring) (r : Loaded)
    (h : initLine initRec fs env flags data L = some r) :
    ∀ e ∈ r.errors, e.2 = false := by
  unfold initLine at h
  simp only [] at h
  split at h
  · injection h with h; subst h; simp
  · generalize (if ((trim_leading_ws L).getLast? == some '\r') = true
        then List.take ((trim_leading_ws L).length - 1) (trim_leading_ws L)
        else trim_leading_ws L) = b at h
    split at h
    · split at h
      · cases h
      · rename_i sub hsub
        split at h
        · cases h
        · rename_i inner hinner
          injection h with h; subst h
          intro e he
          simp only [List.mem_append] at he
          rcases he with (he | he) | he
          · exact substVars_errors_nonfatal _ _ _ _ _ _ hsub e he
          · split at he
            · simp only [List.mem_singleton] at he
              rw [he]
            · simp at he
          · exact hrec _ _ _ hinner e he
    · split at h
      · injection h with h; subst h; simp
      · injection h with h; subst h; simp

theorem initLines_nonfatal (initRec : Option tstring → StringMap → Option Loaded)
    (hrec : ∀ input data r, initRec input data = some r → ∀ e ∈ r.errors, e.2 = false)
    (fs : FS) (env : Env) (flags : Nat) (lines : List tstring) :
    ∀ (data : StringMap) (r : Loaded),
      initLines initRec fs env flags lines data = some r → ∀ e ∈ r.errors, e.2 = false := by
  induction lines with
  | nil =>
    intro data r h
    injection h with h; subst h; simp
  | cons L rest ih =>
    intro data r h
    rw [initLines_cons] at h
    split at h
    · cases h
    · rename_i r1 h1
      split at h
      · cases h
      · rename_i r2 h2
        injection h with h; subst h
        intro e he
        rcases List.mem_append.1 he with he | he
        · exact initLine_nonfatal initRec hrec fs env flags data L r1 h1 e he
        · exact ih _ _ h2 e he

/-- No report made by `init` asks the sink to raise. -/
theorem init_nonfatal (fs : FS) (env : Env) (flags fuel : Nat) :
    ∀ (input : Option tstring) (data : StringMap) (r : Loaded),
      init fs env flags fuel input data = some r → ∀ e ∈ r.errors, e.2 = false := by
  induction fuel with
  | zero =>
    intro input data r h
    cases input with
    | none => rw [init_failed_stream] at h; injection h with h; subst h; simp
    | some s => cases h
  | succ n ih =>
    intro input data r h
    cases input with
    | none => rw [init_failed_stream] at h; injection h with h; subst h; simp
    | some s => exact initLines_nonfatal _ ih fs env flags _ _ _ h

/-- C7: include merging is last-write-wins in file order.  When the lines
of file `A` are `pre ++ ["include B"] ++ post`, the file the directive
names opens, and `pre`, `post` and the lines of that file are plain
assignment lines, loading `A` completes with a store in which the value of
every key is the one of its last assignment in `pre ++ lines (B) ++ post`;
so every key assigned in `B` is present. -/
theorem PropertiesFromFile_include_merge (fuel : Nat) (fs : FS) (env : Env) (flags : Nat)
    (A contentA B contentB : tstring) (pre post : List tstring) (sub : SubstResult)
    (hA : A ≠ []) (hopenA : fs A = some contentA)
    (hlines : getlines contentA = pre ++ ["include ".toList ++ B] ++ post)
    (hB : B ≠ [])
    (hfirst : ∀ c, B.head? = some c → is_space c = false)
    (hlast : ∀ c, B.getLast? = some c → is_space c = false)
    (hsub : substVars (B.length + 1) B [] env 0 = some sub)
    (hopenB : fs sub.dest = some contentB)
    (hpre : ∀ L ∈ pre, PlainAssignment L)
    (hpost : ∀ L ∈ post, PlainAssignment L)
    (hinB : ∀ L ∈ getlines contentB, PlainAssignment L) :
    ∃ store, PropertiesFromFile (fuel + 2) fs env A flags
        = some (.completed store sub.errors)
      ∧ (∀ k, store.find k = lastAssignment (pre ++ getlines contentB ++ post) k)
      ∧ (∀ L ∈ getlines contentB, exists_ store (assignedKey L) = true) := by
  have hmid : ∀ data, initLines (init fs env flags (fuel + 1)) fs env flags
      ["include ".toList ++ B] data
      = some ⟨(getlines contentB).foldl
          (fun d L => setProperty d (assignedKey L) (assignedValue L)) data,
          sub.errors⟩ := by
    intro data
    rw [initLines_cons, initLine_include _ fs env flags data B sub hB hfirst hlast hsub,
      hopenB]
    have hinner : init fs env flags (fuel + 1) (some contentB) data
        = initLines (init fs env flags fuel) fs env flags (getlines contentB) data := rfl
    rw [hinner, initLines_assignments _ fs env flags _ hinB]
    simp [initLines]
  have hload : init fs env flags (fuel + 2) (some contentA) []
      = some ⟨(pre ++ getlines contentB ++ post).foldl
          (fun d L => setProperty d (assignedKey L) (assignedValue L)) [],
          sub.errors⟩ := by
    show initLines (init fs env flags (fuel + 1)) fs env flags (getlines contentA) [] = _
    rw [hlines, initLines_append, initLines_append,
      initLines_assignments _ fs env flags pre hpre]
    simp only [hmid, initLines_assignments _ fs env flags post hpost, List.foldl_append,
      List.nil_append, List.append_nil]
  have hfind : ∀ k, ((pre ++ getlines contentB ++ post).foldl
      (fun d L => setProperty d (assignedKey L) (assignedValue L)) []).find k
      = lastAssignment (pre ++ getlines contentB ++ post) k := by
    intro k
    rw [find_foldl_assignments]
    cases lastAssignment (pre ++ getlines contentB ++ post) k <;> rfl
  refine ⟨_, ?_, hfind, ?_⟩
  · unfold PropertiesFromFile
    have h1 : A.isEmpty = false := by
      cases A with
      | nil => exact absurd rfl hA
      | cons a t => rfl
    simp only [h1, imbue_file_from_flags, hopenA, hload]
    simp
  · intro L hL
    unfold exists_
    rw [hfind]
    exact lastAssignment_isSome_of_mem _ L (by simp [hL])

theorem PropertiesFromFile_include_merge_witness :
    (∃ store, PropertiesFromFile (0 + 2)
        (fun p => if p = "A".toList then some "x=1\ninclude B\ny=5".toList
          else if p = "B".toList then some "x=2\ny=3\nz=4".toList else none)
        (fun _ => none) "A".toList 0
        = some (.completed store [])
      ∧ (∀ k, store.find k
          = lastAssignment (["x=1".toList] ++ getlines "x=2\ny=3\nz=4".toList
              ++ ["y=5".toList]) k)
      ∧ (∀ L ∈ getlines "x=2\ny=3\nz=4".toList, exists_ store (assignedKey L) = true))
    ∧ PropertiesFromFile 2
        (fun p => if p = "A".toList then some "x=1\ninclude B\ny=5".toList
          else if p = "B".toList then some "x=2\ny=3\nz=4".toList else none)
        (fun _ => none) "A".toList 0
        = some (.completed
            [("x".toList, "2".toList), ("y".toList, "5".toList), ("z".toList, "4".toList)]
            []) :=
  ⟨PropertiesFromFile_include_merge 0
      (fun p => if p = "A".toList then some "x=1\ninclude B\ny=5".toList
        else if p = "B".toList then some "x=2\ny=3\nz=4".toList else none)
      (fun _ => none) 0 "A".toList "x=1\ninclude B\ny=5".toList "B".toList
      "x=2\ny=3\nz=4".toList ["x=1".toList] ["y=5".toList] ⟨"B".toList, false, []⟩
      (by decide) (by decide) (by decide) (by decide) (by decide) (by decide) (by decide)
      (by decide) (by decide) (by decide) (by decide),
    by decide⟩

/-- C8: a nested include that does not open is skipped and never fatal.
When the lines of a stream are `pre ++ ["include P"] ++ post` and the file
the directive names does not open, then for every value of the load flags
the load gives the same store as the load of `pre ++ post` (it returns
exactly when that one does), every report it makes has `fatal = false`, the
failure to open is among them, and the constructor on a file with these
lines does not raise. -/
theorem init_failed_include_skipped (fuel : Nat) (fs : FS) (env : Env) (flags : Nat)
    (data : StringMap) (s s2 P : tstring) (pre post : List tstring) (sub : SubstResult)
    (hs : getlines s = pre ++ ["include ".toList ++ P] ++ post)
    (hs2 : getlines s2 = pre ++ post)
    (hP : P ≠ [])
    (hfirst : ∀ c, P.head? = some c → is_space c = false)
    (hlast : ∀ c, P.getLast? = some c → is_space c = false)
    (hsub : substVars (P.length + 1) P [] env 0 = some sub)
    (hfail : fs sub.dest = none) :
    (init fs env flags fuel (some s) data).map Loaded.data
        = (init fs env flags fuel (some s2) data).map Loaded.data
    ∧ (∀ r, init fs env flags fuel (some s) data = some r →
        (couldNotOpenMsg sub.dest, false) ∈ r.errors ∧ ∀ e ∈ r.errors, e.2 = false)
    ∧ (∀ A errs, fs A = some s →
        PropertiesFromFile fuel fs env A flags ≠ some (.raised errs)) := by
  refine ⟨?_, ?_, ?_⟩
  · cases fuel with
    | zero => rfl
    | succ n =>
      show (initLines (init fs env flags n) fs env flags (getlines s) data).map Loaded.data
        = (initLines (init fs env flags n) fs env flags (getlines s2) data).map Loaded.data
      rw [hs, hs2, initLines_append, initLines_append, initLines_append]
      cases initLines (init fs env flags n) fs env flags pre data with
      | none => rfl
      | some r1 =>
        simp only [initLines_cons,
          initLine_include _ fs env flags r1.data P sub hP hfirst hlast hsub, hfail,
          init_failed_stream, initLines]
        cases initLines (init fs env flags n) fs env flags post r1.data with
        | none => rfl
        | some r2 => rfl
  · intro r hr
    refine ⟨?_, init_nonfatal fs env flags fuel _ _ _ hr⟩
    cases fuel with
    | zero => cases hr
    | succ n =>
      have hr2 : initLines (init fs env flags n) fs env flags (getlines s) data = some r := hr
      rw [hs, initLines_append, initLines_append] at hr2
      cases h1 : initLines (init fs env flags n) fs env flags pre data with
      | none => rw [h1] at hr2; cases hr2
      | some r1 =>
        rw [h1] at hr2
        simp only [initLines_cons,
          initLine_include _ fs env flags r1.data P sub hP hfirst hlast hsub, hfail,
          init_failed_stream, initLines] at hr2
        cases h2 : initLines (init fs env flags n) fs env flags post r1.data with
        | none => rw [h2] at hr2; cases hr2
        | some r2 =>
          rw [h2] at hr2
          injection hr2 with hr2
          subst hr2
          simp
  · intro A errs hA
    unfold PropertiesFromFile
    by_cases hE : A.isEmpty = true
    · simp [hE]
    · simp only [hE, imbue_file_from_flags, hA]
      cases init fs env flags fuel (some s) [] <;> simp

theorem init_failed_include_skipped_witness :
    ((init (fun p => if p = "A".toList then some "a=1\ninclude nofile\nb=2".toList else none)
          (fun _ => none) fThrow 1 (some "a=1\ninclude nofile\nb=2".toList) []).map
          Loaded.data
        = (init (fun p => if p = "A".toList then some "a=1\ninclude nofile\nb=2".toList
              else none)
            (fun _ => none) fThrow 1 (some "a=1\nb=2".toList) []).map Loaded.data
      ∧ (∀ r, init (fun p => if p = "A".toList then some "a=1\ninclude nofile\nb=2".toList
              else none)
            (fun _ => none) fThrow 1 (some "a=1\ninclude nofile\nb=2".toList) [] = some r →
          (couldNotOpenMsg "nofile".toList, false) ∈ r.errors ∧ ∀ e ∈ r.errors, e.2 = false)
      ∧ (∀ A errs,
          (fun p => if p = "A".toList then some "a=1\ninclude nofile\nb=2".toList
            else none : FS) A = some "a=1\ninclude nofile\nb=2".toList →
          PropertiesFromFile 1
            (fun p => if p = "A".toList then some "a=1\ninclude nofile\nb=2".toList
              else none)
            (fun _ => none) A fThrow ≠ some (.raised errs)))
    ∧ PropertiesFromFile 1
        (fun p => if p = "A".toList then some "a=1\ninclude nofile\nb=2".toList else none)
        (fun _ => none) "A".toList fThrow
      = some (.completed [("a".toList, "1".toList), ("b".toList, "2".toList)]
          [(couldNotOpenMsg "nofile".toList, false)]) :=
  ⟨init_failed_include_skipped 1
      (fun p => if p = "A".toList then some "a=1\ninclude nofile\nb=2".toList else none)
      (fun _ => none) fThrow []
      "a=1\ninclude nofile\nb=2".toList "a=1\nb=2".toList "nofile".toList
      ["a=1".toList] ["b=2".toList] ⟨"nofile".toList, false, []⟩
      (by decide) (by decide) (by decide) (by decide) (by decide) (by decide) (by decide),
    by decide⟩

/-! ## Lines that `init` skips -/

theorem initLine_skipped (initRec : Option tstring → StringMap → Option Loaded)
    (fs : FS) (env : Env) (flags : Nat) (data : StringMap) (L : tstring)
    (h : trim_leading_ws L = []
      ∨ (trim_leading_ws L).head? = some PROPERTIES_COMMENT_CHAR) :
    initLine initRec fs env flags data L = some ⟨data, []⟩ := by
  have c1 : ((trim_leading_ws L).length == 0
      || (trim_leading_ws L).head? == some PROPERTIES_COMMENT_CHAR) = true := by
    rcases h with h | h
    · rw [h]; rfl
    · rw [h]; simp
  unfold initLine
  simp only [c1, if_true]

theorem initLines_skipped (initRec : Option tstring → StringMap → Option Loaded)
    (fs : FS) (env : Env) (flags : Nat) (data : StringMap) (lines : List tstring)
    (h : ∀ L ∈ lines, trim_leading_ws L = []
      ∨ (trim_leading_ws L).head? = some PROPERTIES_COMMENT_CHAR) :
    initLines initRec fs env flags lines data = some ⟨data, []⟩ := by
  induction lines with
  | nil => rfl
  | cons L rest ih =>
    rw [initLines_cons, initLine_skipped _ fs env flags data L (h L (by simp))]
    simp only
    rw [ih (fun M hM => h M (List.mem_cons_of_mem _ hM))]
    rfl

/-- C13: a stream whose lines are all blank, whitespace only, or have `#` as
their first non-whitespace character loads into the empty store, without
any report; so does the stream `"#x=y"`. -/
theorem PropertiesFromStream_comments_only (fuel : Nat) (fs : FS) (env : Env)
    (s : tstring)
    (h : ∀ L ∈ getlines s, trim_leading_ws L = []
      ∨ (trim_leading_ws L).head? = some PROPERTIES_COMMENT_CHAR) :
    PropertiesFromStream (fuel + 1) fs env (some s) = some ⟨[], []⟩
    ∧ PropertiesFromStream (fuel + 1) fs env (some "#x=y".toList) = some ⟨[], []⟩ := by
  refine ⟨initLines_skipped _ fs env 0 [] _ h, ?_⟩
  exact initLines_skipped _ fs env 0 [] _ (by decide)

theorem PropertiesFromStream_comments_only_witness :
    PropertiesFromStream (0 + 1) (fun _ => none) (fun _ => none)
        (some "# a = 1\n\n \t \r\n   #b=2\n#".toList) = some ⟨[], []⟩
    ∧ PropertiesFromStream (0 + 1) (fun _ => none) (fun _ => none)
        (some "#x=y".toList) = some ⟨[], []⟩ :=
  PropertiesFromStream_comments_only 0 (fun _ => none) (fun _ => none)
    "# a = 1\n\n \t \r\n   #b=2\n#".toList (by decide)

/-- C15: after `setProperty (k, v)` the key `k` exists with value `v`,
whatever it held before; every other key exists as before and has the value
it had; and `getProperty` of a key that is absent is the empty text. -/
theorem setProperty_frame (data : StringMap) (k v : tstring) :
    exists_ (setProperty data k v) k = true
    ∧ getProperty (setProperty data k v) k = v
    ∧ (∀ k2, k2 ≠ k →
        exists_ (setProperty data k v) k2 = exists_ data k2
        ∧ getProperty (setProperty data k v) k2 = getProperty data k2)
    ∧ (∀ k2, exists_ data k2 = false → getProperty data k2 = []) := by
  refine ⟨?_, ?_, ?_, ?_⟩
  · simp [exists_, find_setProperty]
  · simp [getProperty, find_setProperty]
  · intro k2 hk
    have hk2 : ¬ k = k2 := fun e => hk e.symm
    simp [exists_, getProperty, find_setProperty, hk2]
  · intro k2 h
    unfold exists_ at h
    unfold getProperty
    cases hf : data.find k2 with
    | none => rfl
    | some x => rw [hf] at h; cases h

theorem setProperty_frame_witness :
    exists_ (setProperty [("a.b.c".toList, "false".toList)] "a.b.c".toList "true".toList)
        "a.b.c".toList = true
    ∧ getProperty (setProperty [("a.b.c".toList, "false".toList)] "a.b.c".toList
        "true".toList) "a.b.c".toList = "true".toList
    ∧ getProperty (setProperty [("second".toList, "x".toList)] "a.b.c".toList
        "true".toList) "second".toList = "x".toList
    ∧ getProperty [("second".toList, "x".toList)] "a.b.c".toList = [] :=
  ⟨(setProperty_frame [("a.b.c".toList, "false".toList)] "a.b.c".toList "true".toList).1,
    (setProperty_frame [("a.b.c".toList, "false".toList)] "a.b.c".toList
      "true".toList).2.1,
    by decide,
    (setProperty_frame [("second".toList, "x".toList)] "a.b.c".toList "true".toList).2.2.2
      "a.b.c".toList (by decide)⟩

/-! ## `changed` and the working text -/

theorem loop_unchanged (val : tstring) (props : StringMap) (env : Env) (ev sh re : Bool)
    (fuel : Nat) : ∀ (pattern : tstring) (i : Nat) (changed : Bool) (r : SubstResult),
    (changed = false → pattern = val) →
    substVarsLoop val props env ev sh re fuel pattern i changed = some r →
    r.changed = false → r.dest = val := by
  induction fuel with
  | zero => intro pattern i changed r _ h; simp [substVarsLoop] at h
  | succ n ih =>
    intro pattern i changed r hinv h hc
    unfold substVarsLoop at h
    split at h
    · injection h with h; subst h; exact hinv hc
    · split at h
      · injection h with h; subst h; rfl
      · simp only at h
        split at h
        · split at h
          · exact ih _ _ _ _ (fun e => by cases e) h hc
          · exact ih _ _ _ _ (fun e => by cases e) h hc
        · exact ih _ _ _ _ hinv h hc

/-- C19: when `substVars` returns `false`, `dest` is the input `val`.  The
converse fails: with `a` set to `"${a}"` in the environment the call on
`"${a}"` returns `true` and `dest` is again `"${a}"`. -/
theorem substVars_false_unchanged (fuel : Nat) (val : tstring) (props : StringMap)
    (env : Env) (flags : Nat) (r : SubstResult)
    (h : substVars fuel val props env flags = some r) (hc : r.changed = false) :
    r.dest = val
    ∧ substVars 2 "$\x7ba\x7d".toList []
        (fun n => if n = "a".toList then some "$\x7ba\x7d".toList else none) 0
      = some ⟨"$\x7ba\x7d".toList, true, []⟩ :=
  ⟨loop_unchanged _ _ _ _ _ _ _ _ _ _ _ (fun _ => rfl) h hc, by decide⟩

theorem substVars_false_unchanged_witness :
    (⟨"Value is $\x7bmissing\x7d".toList, false, []⟩ : SubstResult).dest
        = "Value is $\x7bmissing\x7d".toList
    ∧ substVars 2 "$\x7ba\x7d".toList []
        (fun n => if n = "a".toList then some "$\x7ba\x7d".toList else none) 0
      = some ⟨"$\x7ba\x7d".toList, true, []⟩ :=
  substVars_false_unchanged 2 "Value is $\x7bmissing\x7d".toList [] (fun _ => none) 0
    ⟨"Value is $\x7bmissing\x7d".toList, false, []⟩ (by decide) rfl

/-! ## The loop of `substVars`, iteration by iteration -/

/-- The loop runs the body once and goes on from the state it leaves. -/
theorem substVarsLoop_step (val : tstring) (props : StringMap) (env : Env)
    (ev sh re : Bool) (fuel : Nat) (pattern : tstring) (i : Nat) (changed : Bool) :
    substVarsLoop val props env ev sh re (fuel + 1) pattern i changed
      = match substVarsStep val props env ev sh re pattern i changed with
        | .returned r => some r
        | .again p2 i2 c2 => substVarsLoop val props env ev sh re fuel p2 i2 c2 := by
  simp only [substVarsLoop, substVarsStep]
  cases find pattern DELIM_START i with
  | none => rfl
  | some vs =>
    simp only
    cases find pattern DELIM_STOP vs with
    | none => rfl
    | some ve =>
      simp only
      split
      · cases re <;> simp
      · rfl

/-- Without the recursive-expansion flag an iteration that does not return
leaves a strictly shorter suffix of the text to scan. -/
theorem step_norec_progress (val : tstring) (props : StringMap) (env : Env)
    (ev sh : Bool) (pattern : tstring) (i : Nat) (changed : Bool)
    (p2 : tstring) (i2 : Nat) (c2 : Bool)
    (h : substVarsStep val props env ev sh false pattern i changed = .again p2 i2 c2) :
    i ≤ i2 ∧ i2 ≤ p2.length ∧ p2.length - i2 < pattern.length - i
      ∧ p2.drop i2 <:+ pattern.drop i
      ∧ (i < i2 ∨ (ev = true ∧ p2.length < pattern.length)) := by
  unfold substVarsStep at h
  split at h
  · cases h
  · rename_i vs h1
    split at h
    · cases h
    · rename_i ve h2
      have b1 := find_bounds _ _ _ _ h1
      have b2 := find_bounds _ _ _ _ h2
      simp only [DELIM_STOP_LEN, DELIM_START_LEN] at h
      split at h
      · rename_i hcond
        simp only [Bool.false_eq_true, if_false] at h
        injection h with hp hi hc
        subst hp; subst hi
        have hlen := length_replace pattern vs (ve - vs + 1)
          (lookupReplacement props env ev sh (substr pattern (vs + 2) (ve - (vs + 2))))
          (by omega)
        have hdrop : (replace pattern vs (ve - vs + 1)
            (lookupReplacement props env ev sh (substr pattern (vs + 2) (ve - (vs + 2))))).drop
              (vs + (lookupReplacement props env ev sh
                (substr pattern (vs + 2) (ve - (vs + 2)))).length)
            = pattern.drop (ve + 1) := by
          unfold replace
          have e1 : vs + (lookupReplacement props env ev sh
              (substr pattern (vs + 2) (ve - (vs + 2)))).length
              = (pattern.take vs ++ lookupReplacement props env ev sh
                (substr pattern (vs + 2) (ve - (vs + 2)))).length := by
            rw [List.length_append, List.length_take]; omega
          rw [e1, List.drop_left]
          congr 1; omega
        refine ⟨by omega, by omega, by omega, ?_, ?_⟩
        · rw [hdrop]
          have : pattern.drop (ve + 1) = (pattern.drop i).drop (ve + 1 - i) := by
            rw [List.drop_drop]; congr 1; omega
          rw [this]
          exact List.drop_suffix _ _
        · by_cases hr : lookupReplacement props env ev sh
              (substr pattern (vs + 2) (ve - (vs + 2))) = []
          · right
            have hl0 : (lookupReplacement props env ev sh
                (substr pattern (vs + 2) (ve - (vs + 2)))).length = 0 := by rw [hr]; rfl
            rw [hr] at hcond
            simp only [List.isEmpty_nil, Bool.not_true, Bool.or_false] at hcond
            exact ⟨hcond, by omega⟩
          · left
            have : 0 < (lookupReplacement props env ev sh
                (substr pattern (vs + 2) (ve - (vs + 2)))).length :=
              List.length_pos.2 hr
            omega
      · injection h with hp hi hc
        subst hp; subst hi
        refine ⟨by omega, by omega, by omega, ?_, Or.inl (by omega)⟩
        have : pattern.drop (ve + 1) = (pattern.drop i).drop (ve + 1 - i) := by
          rw [List.drop_drop]; congr 1; omega
        rw [this]
        exact List.drop_suffix _ _

theorem step_replace (val : tstring) (props : StringMap) (env : Env)
    (ev sh re : Bool) (pattern : tstring) (i : Nat) (changed : Bool)
    (var_start var_end : Nat) (r : tstring)
    (h1 : find pattern DELIM_START i = some var_start)
    (h2 : find pattern DELIM_STOP var_start = some var_end)
    (h3 : lookupReplacement props env ev sh
      (substr pattern (var_start + 2) (var_end - (var_start + 2))) = r)
    (h4 : ev = true ∨ r ≠ []) :
    substVarsStep val props env ev sh re pattern i changed
      = .again (replace pattern var_start (var_end - var_start + 1) r)
          (if re then i else var_start + r.length) true := by
  have h5 : (ev || !r.isEmpty) = true := by
    rcases h4 with h | h
    · simp [h]
    · cases r with
      | nil => exact absurd rfl h
      | cons a t => simp
  simp only [substVarsStep, h1, h2, DELIM_START_LEN, DELIM_STOP_LEN, h3, h5, if_true]
  cases re <;> simp

/-- C17 (counterexample): with the allow-empty flag set and `a` without a
value, the iteration on `"${a}b"` from `i = 0` splices in the empty text
and goes on with `i = 0`: the scan position has not increased. -/
theorem substVarsStep_position_kept :
    substVarsStep "$\x7ba\x7db".toList [] (fun _ => none)
        (testFlag fAllowEmptyVars fAllowEmptyVars)
        (testFlag fAllowEmptyVars fShadowEnvironment)
        (testFlag fAllowEmptyVars fRecursiveExpansion) "$\x7ba\x7db".toList 0 false
      = .again "b".toList 0 true := by
  decide

/-- C17 (amended): with the recursive-expansion flag unset, in every loop
iteration that does not return the scan position `i` does not decrease, and
it increases strictly unless the allow-empty flag is set and the text got
shorter (an empty replacement spliced in at `i`); the text left to scan,
`pattern` from `i` on, becomes a strictly shorter suffix of what it was, so
text already spliced in is never scanned again; and the call returns for
every input, store and environment. -/
theorem substVars_norec_single_pass (val : tstring) (props : StringMap) (env : Env)
    (flags : Nat) (hrec : testFlag flags fRecursiveExpansion = false) :
    (∀ (pattern : tstring) (i : Nat) (changed : Bool) (p2 : tstring) (i2 : Nat)
        (c2 : Bool),
      substVarsStep val props env (testFlag flags fAllowEmptyVars)
          (testFlag flags fShadowEnvironment) (testFlag flags fRecursiveExpansion)
          pattern i changed = .again p2 i2 c2 →
      i ≤ i2 ∧ i2 ≤ p2.length ∧ p2.length - i2 < pattern.length - i
        ∧ p2.drop i2 <:+ pattern.drop i
        ∧ (i < i2 ∨ (testFlag flags fAllowEmptyVars = true ∧ p2.length < pattern.length)))
    ∧ ∃ r, substVars (val.length + 1) val props env flags = some r := by
  refine ⟨?_, ?_⟩
  · intro pattern i changed p2 i2 c2 h
    rw [hrec] at h
    exact step_norec_progress _ _ _ _ _ _ _ _ _ _ _ h
  · unfold substVars
    rw [hrec]
    exact loop_terminates_norec _ _ _ _ _ _ _ _ _ (Nat.zero_le _) (by omega)

theorem substVars_norec_single_pass_witness :
    (0 ≤ 10 ∧ 10 ≤ "Value is v and $\x7bj\x7d".toList.length
      ∧ "Value is v and $\x7bj\x7d".toList.length - 10
          < "Value is $\x7bk\x7d and $\x7bj\x7d".toList.length - 0
      ∧ "Value is v and $\x7bj\x7d".toList.drop 10
          <:+ "Value is $\x7bk\x7d and $\x7bj\x7d".toList.drop 0
      ∧ (0 < 10 ∨ (testFlag 0 fAllowEmptyVars = true
          ∧ "Value is v and $\x7bj\x7d".toList.length
              < "Value is $\x7bk\x7d and $\x7bj\x7d".toList.length)))
    ∧ ∃ r, substVars ("Value is $\x7bk\x7d and $\x7bj\x7d".toList.length + 1)
        "Value is $\x7bk\x7d and $\x7bj\x7d".toList []
        (fun n => if n = "k".toList then some "v".toList else none) 0 = some r :=
  ⟨(substVars_norec_single_pass "Value is $\x7bk\x7d and $\x7bj\x7d".toList []
      (fun n => if n = "k".toList then some "v".toList else none) 0 (by decide)).1
      "Value is $\x7bk\x7d and $\x7bj\x7d".toList 0 false
      "Value is v and $\x7bj\x7d".toList 10 true (by decide),
    (substVars_norec_single_pass "Value is $\x7bk\x7d and $\x7bj\x7d".toList []
      (fun n => if n = "k".toList then some "v".toList else none) 0 (by decide)).2⟩

/-! ## Recursive expansion -/

theorem loop_self_reference (val : tstring) (props : StringMap) (env : Env) (ev sh : Bool)
    (h3 : lookupReplacement props env ev sh "a".toList = "$\x7ba\x7d".toList)
    (fuel : Nat) : ∀ changed : Bool,
    substVarsLoop val props env ev sh true fuel "$\x7ba\x7d".toList 0 changed = none := by
  induction fuel with
  | zero => intro changed; rfl
  | succ n ih =>
    intro changed
    rw [loop_replace _ _ _ _ _ _ _ _ _ _ 0 3 "$\x7ba\x7d".toList (by decide) (by decide)
      h3 (Or.inr (by decide))]
    exact ih true

/-- C20: with the recursive-expansion flag set `substVars` need not return.
On `"${a}"`, when the store has `a -> "${a}"` and the shadow flag is set, or
when the environment has `a = "${a}"` and the shadow flag is unset, one
iteration leaves the working text `"${a}"` and the position `0` as they
were, and the loop returns for no number of iterations. -/
theorem substVars_recursive_diverges (props : StringMap) (env : Env) :
    substVarsStep "$\x7ba\x7d".toList [("a".toList, "$\x7ba\x7d".toList)] env
        (testFlag 3 fAllowEmptyVars) (testFlag 3 fShadowEnvironment)
        (testFlag 3 fRecursiveExpansion) "$\x7ba\x7d".toList 0 false
      = .again "$\x7ba\x7d".toList 0 true
    ∧ (∀ fuel, substVars fuel "$\x7ba\x7d".toList [("a".toList, "$\x7ba\x7d".toList)] env
        (fRecursiveExpansion + fShadowEnvironment) = none)
    ∧ substVarsStep "$\x7ba\x7d".toList props
        (fun n => if n = "a".toList then some "$\x7ba\x7d".toList else none)
        (testFlag 1 fAllowEmptyVars) (testFlag 1 fShadowEnvironment)
        (testFlag 1 fRecursiveExpansion) "$\x7ba\x7d".toList 0 false
      = .again "$\x7ba\x7d".toList 0 true
    ∧ (∀ fuel, substVars fuel "$\x7ba\x7d".toList props
        (fun n => if n = "a".toList then some "$\x7ba\x7d".toList else none)
        fRecursiveExpansion = none) := by
  have hs : lookupReplacement [("a".toList, "$\x7ba\x7d".toList)] env false true
      "a".toList = "$\x7ba\x7d".toList := by
    unfold lookupReplacement
    have : getProperty [("a".toList, "$\x7ba\x7d".toList)] "a".toList
        = "$\x7ba\x7d".toList := by decide
    rw [this]
    rfl
  have he : lookupReplacement props
      (fun n => if n = "a".toList then some "$\x7ba\x7d".toList else none) false false
      "a".toList = "$\x7ba\x7d".toList := rfl
  have f3a : testFlag 3 fAllowEmptyVars = false := by decide
  have f3s : testFlag 3 fShadowEnvironment = true := by decide
  have f3r : testFlag 3 fRecursiveExpansion = true := by decide
  have f1a : testFlag 1 fAllowEmptyVars = false := by decide
  have f1s : testFlag 1 fShadowEnvironment = false := by decide
  have f1r : testFlag 1 fRecursiveExpansion = true := by decide
  refine ⟨?_, ?_, ?_, ?_⟩
  · rw [f3a, f3s, f3r]
    exact step_replace _ _ _ _ _ _ _ _ _ 0 3 "$\x7ba\x7d".toList (by decide) (by decide)
      hs (Or.inr (by decide))
  · intro fuel
    show substVarsLoop _ _ _ (testFlag 3 fAllowEmptyVars) (testFlag 3 fShadowEnvironment)
      (testFlag 3 fRecursiveExpansion) fuel _ 0 false = none
    rw [f3a, f3s, f3r]
    exact loop_self_reference _ _ _ _ _ hs fuel false
  · rw [f1a, f1s, f1r]
    exact step_replace _ _ _ _ _ _ _ _ _ 0 3 "$\x7ba\x7d".toList (by decide) (by decide)
      he (Or.inr (by decide))
  · intro fuel
    show substVarsLoop _ _ _ (testFlag 1 fAllowEmptyVars) (testFlag 1 fShadowEnvironment)
      (testFlag 1 fRecursiveExpansion) fuel _ 0 false = none
    rw [f1a, f1s, f1r]
    exact loop_self_reference _ _ _ _ _ he fuel false

/-- The pattern `"${" ++ A ++ "}"` for a name without `}`: where the two
delimiters are found and what lies between them. -/
theorem reference_shape (A : tstring) (hA : '\x7d' ∉ A) :
    find (DELIM_START ++ A ++ DELIM_STOP) DELIM_START 0 = some 0
    ∧ find (DELIM_START ++ A ++ DELIM_STOP) DELIM_STOP 0 = some (A.length + 2)
    ∧ substr (DELIM_START ++ A ++ DELIM_STOP) (0 + 2) (A.length + 2 - (0 + 2)) = A
    ∧ ∀ r : tstring,
        replace (DELIM_START ++ A ++ DELIM_STOP) 0 (A.length + 2 - 0 + 1) r = r := by
  have hall : ∀ a ∈ A, (fun x : Char => x != '\x7d') a = true := by
    intro a ha
    have : a ≠ '\x7d' := fun e => hA (e ▸ ha)
    simp [this]
  refine ⟨?_, ?_, ?_, ?_⟩
  · simp [find, findAux, DELIM_START, List.isPrefixOf]
  · have hmem : '\x7d' ∈ DELIM_START ++ A ++ DELIM_STOP := by simp [DELIM_STOP]
    have htw : (DELIM_START ++ A ++ DELIM_STOP).takeWhile (fun x => x != '\x7d')
        = DELIM_START ++ A := by
      have h1 : ∀ a ∈ DELIM_START ++ A, (fun x : Char => x != '\x7d') a = true := by
        intro a ha
        rcases List.mem_append.1 ha with h | h
        · simp only [DELIM_START, List.mem_cons, List.mem_singleton] at h
          rcases h with h | h | h
          · subst h; decide
          · subst h; decide
          · simp at h
        · exact hall a h
      rw [List.takeWhile_append_of_pos h1]
      simp [DELIM_STOP]
    have := find_char_zero '\x7d' _ hmem
    rw [htw] at this
    show find (DELIM_START ++ A ++ DELIM_STOP) ['\x7d'] 0 = _
    rw [this]
    simp [DELIM_START]
  · simp [substr, DELIM_START, DELIM_STOP]
  · intro r
    simp [replace, DELIM_START, DELIM_STOP]

theorem find_at_end (str needle : tstring) : find str needle str.length = none := by
  simp [find, findAux]

/-- A run that ends without a report ends with the same text when it is
started with another `val` and with `changed` set. -/
theorem loop_transfer (val val2 : tstring) (props : StringMap) (env : Env)
    (ev sh re : Bool) (fuel : Nat) :
    ∀ (pattern : tstring) (i : Nat) (changed : Bool) (d : tstring) (c : Bool),
      substVarsLoop val props env ev sh re fuel pattern i changed = some ⟨d, c, []⟩ →
      substVarsLoop val2 props env ev sh re fuel pattern i true = some ⟨d, true, []⟩ := by
  induction fuel with
  | zero => intro pattern i changed d c h; simp [substVarsLoop] at h
  | succ n ih =>
    intro pattern i changed d c h
    cases h1 : find pattern DELIM_START i with
    | none =>
      rw [loop_done _ _ _ _ _ _ _ _ _ _ h1] at h ⊢
      simp only [Option.some.injEq, SubstResult.mk.injEq] at h
      simp [h.1]
    | some vs =>
      cases h2 : find pattern DELIM_STOP vs with
      | none =>
        rw [loop_unterminated _ _ _ _ _ _ _ _ _ _ _ h1 h2] at h
        simp at h
      | some ve =>
        by_cases hc : ev = true ∨ lookupReplacement props env ev sh
            (substr pattern (vs + 2) (ve - (vs + 2))) ≠ []
        · rw [loop_replace _ _ _ _ _ _ _ _ _ _ _ _ _ h1 h2 rfl hc] at h ⊢
          exact ih _ _ _ _ _ h
        · have hev : ev = false := by
            cases ev
            · rfl
            · exact absurd (Or.inl rfl) hc
          have hl : lookupReplacement props env ev sh
              (substr pattern (vs + 2) (ve - (vs + 2))) = [] := by
            by_contra hx
            exact hc (Or.inr hx)
          subst hev
          rw [loop_skip _ _ _ _ _ _ _ _ _ _ _ h1 h2 hl] at h ⊢
          exact ih _ _ _ _ _ h

/-- C16: where scanning resumes after a replacement.  For a name `A` without
`}` whose replacement is a non-empty text `r`, on the input `"${A}"`:
(a) without the recursive-expansion flag the call returns `true` with
`dest = r`, whatever `r` contains; (b) with the flag, whenever the call on
the input `r` (same store, environment and flags) returns without a report,
the call on `"${A}"` returns `true` with the `dest` of that call. -/
theorem substVars_single_reference (A r : tstring) (props : StringMap) (env : Env)
    (flags : Nat) (hA : '\x7d' ∉ A)
    (hr : lookupReplacement props env (testFlag flags fAllowEmptyVars)
      (testFlag flags fShadowEnvironment) A = r)
    (hne : r ≠ []) :
    (testFlag flags fRecursiveExpansion = false →
      ∀ fuel, substVars (fuel + 2) (DELIM_START ++ A ++ DELIM_STOP) props env flags
        = some ⟨r, true, []⟩)
    ∧ (testFlag flags fRecursiveExpansion = true →
      ∀ fuel d c, substVars fuel r props env flags = some ⟨d, c, []⟩ →
        substVars (fuel + 1) (DELIM_START ++ A ++ DELIM_STOP) props env flags
          = some ⟨d, true, []⟩) := by
  obtain ⟨s1, s2, s3, s4⟩ := reference_shape A hA
  have h3 : lookupReplacement props env (testFlag flags fAllowEmptyVars)
      (testFlag flags fShadowEnvironment)
      (substr (DELIM_START ++ A ++ DELIM_STOP) (0 + 2) (A.length + 2 - (0 + 2))) = r := by
    rw [s3]; exact hr
  refine ⟨?_, ?_⟩
  · intro hrec fuel
    unfold substVars
    rw [hrec, loop_replace _ _ _ _ _ _ _ _ _ _ 0 (A.length + 2) r s1 s2 h3 (Or.inr hne), s4]
    simp only [Bool.false_eq_true, if_false, Nat.zero_add]
    exact loop_done _ _ _ _ _ _ _ _ _ _ (find_at_end _ _)
  · intro hrec fuel d c h
    unfold substVars at h ⊢
    rw [hrec] at h ⊢
    rw [loop_replace _ _ _ _ _ _ _ _ _ _ 0 (A.length + 2) r s1 s2 h3 (Or.inr hne), s4]
    simp only [if_true]
    exact loop_transfer _ _ _ _ _ _ _ _ _ _ _ _ _ h

theorem substVars_single_reference_witness :
    substVars (0 + 2) (DELIM_START ++ "A".toList ++ DELIM_STOP) []
        (fun n => if n = "A".toList then some "x$\x7bB\x7d".toList
          else if n = "B".toList then some "y".toList else none) 0
      = some ⟨"x$\x7bB\x7d".toList, true, []⟩
    ∧ substVars (2 + 1) (DELIM_START ++ "A".toList ++ DELIM_STOP) []
        (fun n => if n = "A".toList then some "x$\x7bB\x7d".toList
          else if n = "B".toList then some "y".toList else none) fRecursiveExpansion
      = some ⟨"xy".toList, true, []⟩ :=
  ⟨(substVars_single_reference "A".toList "x$\x7bB\x7d".toList []
      (fun n => if n = "A".toList then some "x$\x7bB\x7d".toList
        else if n = "B".toList then some "y".toList else none) 0
      (by decide) (by decide) (by decide)).1 (by decide) 0,
    (substVars_single_reference "A".toList "x$\x7bB\x7d".toList []
      (fun n => if n = "A".toList then some "x$\x7bB\x7d".toList
        else if n = "B".toList then some "y".toList else none) fRecursiveExpansion
      (by decide) (by decide) (by decide)).2 (by decide) 2 "xy".toList true (by decide)⟩

/-! ## Line endings -/

theorem initLine_eq_initBuffer (initRec : Option tstring → StringMap → Option Loaded)
    (fs : FS) (env : Env) (flags : Nat) (data : StringMap) (L : tstring) :
    initLine initRec fs env flags data L
      = if ((trim_leading_ws L).length == 0
            || (trim_leading_ws L).head? == some PROPERTIES_COMMENT_CHAR) = true then
          some ⟨data, []⟩
        else
          initBuffer initRec fs env flags data
            (if ((trim_leading_ws L).getLast? == some '\r') = true then
              (trim_leading_ws L).take ((trim_leading_ws L).length - 1)
            else trim_leading_ws L) := rfl

theorem getlines_line (X rest : tstring) (hX : '\n' ∉ X) :
    getlines (X ++ '\n' :: rest) = X :: getlines rest := by
  induction X with
  | nil => simp [getlines]
  | cons c t ih =>
    have hc : c ≠ '\n' := fun e => hX (by rw [e]; simp)
    have ht : '\n' ∉ t := fun h => hX (List.mem_cons_of_mem _ h)
    rw [List.cons_append, getlines, if_neg hc, ih ht]

theorem getlines_streamOf (t : tstring) (ht : '\n' ∉ t) (lines : List tstring)
    (h : ∀ L ∈ lines, '\n' ∉ L) :
    getlines (streamOf (t ++ ['\n']) lines) = lines.map (fun L => L ++ t) := by
  induction lines with
  | nil => rfl
  | cons L rest ih =>
    have hL : '\n' ∉ L ++ t := by
      intro hm
      rcases List.mem_append.1 hm with e | e
      · exact h L (by simp) e
      · exact ht e
    have : streamOf (t ++ ['\n']) (L :: rest)
        = (L ++ t) ++ '\n' :: streamOf (t ++ ['\n']) rest := by
      simp [streamOf]
    rw [this, getlines_line _ _ hL, ih (fun M hM => h M (List.mem_cons_of_mem _ hM))]
    rfl

/-- A buffer that is not taken for an include directive is an assignment or
is dropped. -/
theorem initBuffer_of_not_include (initRec : Option tstring → StringMap → Option Loaded)
    (fs : FS) (env : Env) (flags : Nat) (data : StringMap) (b : tstring)
    (h : (decide (b.length ≥ 7 + 1 + 1) && substr b 0 7 == "include".toList
      && is_space (b.getD 7 ' ')) = false) :
    initBuffer initRec fs env flags data b
      = if '=' ∈ b then
          some ⟨setProperty data (trim_trailing_ws (b.takeWhile (fun c => c != '=')))
            (trim_ws ((b.dropWhile (fun c => c != '=')).drop 1)), []⟩
        else some ⟨data, []⟩ := by
  unfold initBuffer
  rw [h]
  simp only [Bool.false_eq_true, if_false]
  by_cases heq : '=' ∈ b
  · rw [find_char_zero _ _ heq, if_pos heq]
    simp only [substr, List.drop_zero, take_length_takeWhile]
    rw [← List.drop_drop, drop_length_takeWhile]
  · rw [find_char_zero_none _ _ heq, if_neg heq]

theorem initBuffer_strip_cr (initRec : Option tstring → StringMap → Option Loaded)
    (fs : FS) (env : Env) (flags : Nat) (data : StringMap) (b2 : tstring)
    (h1 : (decide ((b2 ++ ['\r']).length ≥ 7 + 1 + 1)
      && substr (b2 ++ ['\r']) 0 7 == "include".toList
      && is_space ((b2 ++ ['\r']).getD 7 ' ')) = false)
    (h2 : (decide (b2.length ≥ 7 + 1 + 1) && substr b2 0 7 == "include".toList
      && is_space (b2.getD 7 ' ')) = false) :
    initBuffer initRec fs env flags data (b2 ++ ['\r'])
      = initBuffer initRec fs env flags data b2 := by
  rw [initBuffer_of_not_include _ _ _ _ _ _ h1, initBuffer_of_not_include _ _ _ _ _ _ h2]
  by_cases heq : '=' ∈ b2
  · have heq1 : '=' ∈ b2 ++ ['\r'] := List.mem_append_left _ heq
    obtain ⟨_, g2, g3⟩ := strip_cr_facts (b2 ++ ['\r']) b2 (Or.inr rfl) heq1
    rw [if_pos heq, if_pos heq1, g2, g3]
  · have heq1 : '=' ∉ b2 ++ ['\r'] := by
      intro hm
      rcases List.mem_append.1 hm with e | e
      · exact heq e
      · simp at e
    rw [if_neg heq, if_neg heq1]
theorem include_cond_false (b : tstring)
    (h : (substr b 0 7 == "include".toList && is_space (b.getD 7 'x')) = false) :
    (decide (b.length ≥ 7 + 1 + 1) && substr b 0 7 == "include".toList
      && is_space (b.getD 7 ' ')) = false := by
  rcases Bool.eq_false_or_eq_true (decide (b.length ≥ 7 + 1 + 1)
      && substr b 0 7 == "include".toList && is_space (b.getD 7 ' ')) with hc2 | hc2
  swap
  · exact hc2
  simp only [Bool.and_eq_true, decide_eq_true_eq] at hc2
  obtain ⟨⟨hl, hs⟩, hsp⟩ := hc2
  rw [List.getD_eq_getElem _ _ (by omega)] at hsp
  rw [List.getD_eq_getElem _ _ (by omega), hs, hsp] at h
  simp at h

theorem include_cond_false_of_concat (b2 : tstring) (c : Char)
    (h : (substr (b2 ++ [c]) 0 7 == "include".toList
      && is_space ((b2 ++ [c]).getD 7 'x')) = false) :
    (decide (b2.length ≥ 7 + 1 + 1) && substr b2 0 7 == "include".toList
      && is_space (b2.getD 7 ' ')) = false := by
  rcases Bool.eq_false_or_eq_true (decide (b2.length ≥ 7 + 1 + 1)
      && substr b2 0 7 == "include".toList && is_space (b2.getD 7 ' ')) with hc2 | hc2
  swap
  · exact hc2
  simp only [Bool.and_eq_true, decide_eq_true_eq] at hc2
  obtain ⟨⟨hl, hs⟩, hsp⟩ := hc2
  rw [List.getD_eq_getElem _ _ (by omega)] at hsp
  have e1 : substr (b2 ++ [c]) 0 7 = substr b2 0 7 := by
    simp only [substr, List.drop_zero]
    exact List.take_append_of_le_length (by omega)
  have e2 : (b2 ++ [c]).getD 7 'x' = b2[7] := by
    rw [List.getD_eq_getElem _ _ (by simp; omega)]
    exact List.getElem_append_left (by omega)
  rw [e1, e2, hs, hsp] at h
  simp at h

/-- A carriage return at the end of a line that is no include directive
makes no difference to what the loop body does. -/
theorem initLine_cr (initRec : Option tstring → StringMap → Option Loaded)
    (fs : FS) (env : Env) (flags : Nat) (data : StringMap) (L : tstring)
    (h : ¬ IncludeDirective L) :
    initLine initRec fs env flags data (L ++ ['\r'])
      = initLine initRec fs env flags data L := by
  have hinc : (substr (trim_leading_ws L) 0 7 == "include".toList
      && is_space ((trim_leading_ws L).getD 7 'x')) = false := by
    unfold IncludeDirective at h
    simpa using h
  rw [initLine_eq_initBuffer, initLine_eq_initBuffer]
  cases hb : trim_leading_ws L with
  | nil =>
    have hall : ∀ a ∈ L, is_space a = true := by
      have := hb
      unfold trim_leading_ws at this
      simpa [List.dropWhile_eq_nil_iff] using this
    have hb1 : trim_leading_ws (L ++ ['\r']) = [] := by
      unfold trim_leading_ws
      rw [List.dropWhile_append_of_pos hall]
      rfl
    rw [hb1]
  | cons x xs =>
    have hb1 : trim_leading_ws (L ++ ['\r']) = (x :: xs) ++ ['\r'] := by
      unfold trim_leading_ws at hb ⊢
      rw [List.dropWhile_append, hb]
      rfl
    rw [hb] at hinc
    rw [hb1]
    have hlast : ((x :: xs ++ ['\r']).getLast? == some '\r') = true := by
      rw [List.getLast?_concat]
      rfl
    have htake : (x :: xs ++ ['\r']).take ((x :: xs ++ ['\r']).length - 1) = x :: xs := by
      rw [List.length_append]
      simp
    have hc1 : ((x :: xs ++ ['\r']).length == 0
        || (x :: xs ++ ['\r']).head? == some PROPERTIES_COMMENT_CHAR)
        = ((x :: xs).length == 0 || (x :: xs).head? == some PROPERTIES_COMMENT_CHAR) := by
      simp
    rw [hc1, hlast, if_pos rfl, htake]
    by_cases hskip : ((x :: xs).length == 0
        || (x :: xs).head? == some PROPERTIES_COMMENT_CHAR) = true
    · rw [if_pos hskip, if_pos hskip]
    · rw [if_neg hskip, if_neg hskip]
      by_cases hcr : ((x :: xs).getLast? == some '\r') = true
      · rw [if_pos hcr]
        have hg : (x :: xs).getLast? = some '\r' := by simpa using hcr
        have hd : (x :: xs).dropLast ++ ['\r'] = x :: xs :=
          List.dropLast_append_getLast? _ hg
        rw [← List.dropLast_eq_take]
        have hinc2 := hinc
        rw [← hd] at hinc2
        have k1 := include_cond_false _ hinc
        have k2 := include_cond_false_of_concat _ _ hinc2
        have := initBuffer_strip_cr initRec fs env flags data (x :: xs).dropLast
          (by rw [hd]; exact k1) k2
        rw [hd] at this
        exact this
      · rw [if_neg hcr]

theorem initLine_returns_of_not_include
    (initRec : Option tstring → StringMap → Option Loaded)
    (fs : FS) (env : Env) (flags : Nat) (data : StringMap) (L : tstring)
    (h : ¬ IncludeDirective L) :
    ∃ r, initLine initRec fs env flags data L = some r := by
  have hinc : (substr (trim_leading_ws L) 0 7 == "include".toList
      && is_space ((trim_leading_ws L).getD 7 'x')) = false := by
    unfold IncludeDirective at h
    simpa using h
  rw [initLine_eq_initBuffer]
  split
  · exact ⟨_, rfl⟩
  · split
    · rename_i hcr
      have hg : (trim_leading_ws L).getLast? = some '\r' := by simpa using hcr
      have hd : (trim_leading_ws L).dropLast ++ ['\r'] = trim_leading_ws L :=
        List.dropLast_append_getLast? _ hg
      rw [← List.dropLast_eq_take]
      rw [← hd] at hinc
      rw [initBuffer_of_not_include _ _ _ _ _ _ (include_cond_false_of_concat _ _ hinc)]
      split <;> exact ⟨_, rfl⟩
    · rw [initBuffer_of_not_include _ _ _ _ _ _ (include_cond_false _ hinc)]
      split <;> exact ⟨_, rfl⟩

theorem initLines_cr (initRec : Option tstring → StringMap → Option Loaded)
    (fs : FS) (env : Env) (flags : Nat) (lines : List tstring)
    (h : ∀ L ∈ lines, ¬ IncludeDirective L) :
    ∀ data : StringMap,
      initLines initRec fs env flags (lines.map (fun L => L ++ ['\r'])) data
          = initLines initRec fs env flags lines data
        ∧ ∃ r, initLines initRec fs env flags lines data = some r := by
  induction lines with
  | nil => intro data; exact ⟨rfl, _, rfl⟩
  | cons L rest ih =>
    intro data
    have hL := h L (by simp)
    have hrest : ∀ M ∈ rest, ¬ IncludeDirective M := fun M hM =>
      h M (List.mem_cons_of_mem _ hM)
    rw [List.map_cons, initLines_cons, initLines_cons, initLine_cr _ _ _ _ _ _ hL]
    obtain ⟨r1, hr1⟩ := initLine_returns_of_not_include initRec fs env flags data L hL
    rw [hr1]
    simp only
    obtain ⟨e, r2, hr2⟩ := ih hrest r1.data
    rw [e, hr2]
    exact ⟨rfl, _, rfl⟩

/-- C14: line-ending independence.  For lines none of which is an include
directive, the stream in which every line ends in `"\r\n"` loads into the
same store, with the same reports, as the stream in which every line ends
in `"\n"`, and both loads return; the line `"a=b\r"` gives `a -> b`. -/
theorem PropertiesFromStream_line_endings (fuel : Nat) (fs : FS) (env : Env)
    (lines : List tstring) (hnl : ∀ L ∈ lines, '\n' ∉ L)
    (hinc : ∀ L ∈ lines, ¬ IncludeDirective L) :
    (∃ r, PropertiesFromStream (fuel + 1) fs env (some (streamOf "\r\n".toList lines))
          = some r
        ∧ PropertiesFromStream (fuel + 1) fs env (some (streamOf "\n".toList lines))
          = some r)
    ∧ (∃ r, PropertiesFromStream (fuel + 1) fs env (some "a=b\r".toList) = some r
        ∧ r.data = [("a".toList, "b".toList)]
        ∧ getProperty r.data "a".toList = "b".toList) := by
  refine ⟨?_, ?_⟩
  · have g1 : getlines (streamOf "\r\n".toList lines)
        = lines.map (fun L => L ++ ['\r']) :=
      getlines_streamOf ['\r'] (by decide) lines hnl
    have g2 : getlines (streamOf "\n".toList lines) = lines.map (fun L => L ++ []) :=
      getlines_streamOf [] (by decide) lines hnl
    have g3 : lines.map (fun L : tstring => L ++ []) = lines := by simp
    obtain ⟨e, r, hr⟩ := initLines_cr (init fs env 0 fuel) fs env 0 lines hinc []
    refine ⟨r, ?_, ?_⟩
    · show initLines (init fs env 0 fuel) fs env 0 (getlines _) [] = some r
      rw [g1, e, hr]
    · show initLines (init fs env 0 fuel) fs env 0 (getlines _) [] = some r
      rw [g2, g3, hr]
  · refine ⟨⟨[("a".toList, "b".toList)], []⟩, ?_, rfl, by decide⟩
    show initLines (init fs env 0 fuel) fs env 0 (getlines "a=b\r".toList) [] = _
    have hg : getlines "a=b\r".toList = ["a=b\r".toList] := by decide
    rw [hg, initLines_assignments _ fs env 0 _ (by decide)]
    have hk : assignedKey "a=b\r".toList = "a".toList := by decide
    have hv : assignedValue "a=b\r".toList = "b".toList := by decide
    simp only [List.foldl_cons, List.foldl_nil, hk, hv]
    rfl

theorem PropertiesFromStream_line_endings_witness :
    (∃ r, PropertiesFromStream (0 + 1) (fun _ => none) (fun _ => none)
          (some (streamOf "\r\n".toList
            ["bool=true".toList, "# note".toList, "".toList, "int = -1 \r".toList]))
          = some r
        ∧ PropertiesFromStream (0 + 1) (fun _ => none) (fun _ => none)
          (some (streamOf "\n".toList
            ["bool=true".toList, "# note".toList, "".toList, "int = -1 \r".toList]))
          = some r)
    ∧ (∃ r, PropertiesFromStream (0 + 1) (fun _ => none) (fun _ => none)
          (some "a=b\r".toList) = some r
        ∧ r.data = [("a".toList, "b".toList)]
        ∧ getProperty r.data "a".toList = "b".toList) :=
  PropertiesFromStream_line_endings 0 (fun _ => none) (fun _ => none)
    ["bool=true".toList, "# note".toList, "".toList, "int = -1 \r".toList]
    (by decide) (by decide)

/-! ## What trimming removes -/

theorem rdropWhile_append_rtakeWhile (p : Char → Bool) (l : tstring) :
    l.rdropWhile p ++ l.rtakeWhile p = l := by
  have h := List.takeWhile_append_dropWhile p l.reverse
  have h2 := congrArg List.reverse h
  rw [List.reverse_append, List.reverse_reverse] at h2
  exact h2

/-- The decomposition of a string by `trim_ws`. -/
theorem trim_ws_decomposition (s : tstring) :
    s = (trim_trailing_ws s).takeWhile is_space ++ trim_ws s ++ s.rtakeWhile is_space
    ∧ trim_trailing_ws s = (trim_trailing_ws s).takeWhile is_space ++ trim_ws s := by
  have h1 : trim_trailing_ws s
      = (trim_trailing_ws s).takeWhile is_space ++ trim_ws s :=
    (List.takeWhile_append_dropWhile is_space (trim_trailing_ws s)).symm
  refine ⟨?_, h1⟩
  rw [← h1, trim_trailing_ws_eq]
  exact (rdropWhile_append_rtakeWhile is_space s).symm

theorem trim_ws_ends (s : tstring) (h : trim_ws s ≠ []) :
    (∃ c, (trim_ws s).head? = some c ∧ is_space c = false)
    ∧ (∃ c, (trim_ws s).getLast? = some c ∧ is_space c = false) := by
  refine ⟨?_, ?_⟩
  · cases hm : trim_ws s with
    | nil => exact absurd hm h
    | cons c t =>
      refine ⟨c, rfl, ?_⟩
      have := List.head?_dropWhile_not is_space (trim_trailing_ws s)
      unfold trim_ws trim_leading_ws at hm
      rw [hm] at this
      simpa using this
  · have hsuf : trim_ws s <:+ trim_trailing_ws s := List.dropWhile_suffix _
    have hne : trim_trailing_ws s ≠ [] := by
      intro e
      apply h
      unfold trim_ws
      rw [e]
      rfl
    have hl := hsuf.getLast h
    have hnot := List.rdropWhile_last_not is_space s hne
    refine ⟨(trim_ws s).getLast h, List.getLast?_eq_getLast _ h, ?_⟩
    rw [hl]
    simpa using hnot

/-- C18 (counterexample): for the string made of one space no `a` and `b`
do what the claim says: `trim_leading_ws` and `trim_trailing_ws` both return
the empty string, so `a` and `b` would both be empty. -/
theorem trim_one_space_no_decomposition :
    ¬ ∃ a b : tstring, " ".toList = a ++ trim_ws " ".toList ++ b
      ∧ (∀ c ∈ a, is_space c = true) ∧ (∀ c ∈ b, is_space c = true)
      ∧ trim_leading_ws " ".toList = trim_ws " ".toList ++ b
      ∧ trim_trailing_ws " ".toList = a ++ trim_ws " ".toList := by
  rintro ⟨a, b, h1, _, _, h4, h5⟩
  have e1 : trim_ws " ".toList = [] := by decide
  have e2 : trim_leading_ws " ".toList = [] := by decide
  have e3 : trim_trailing_ws " ".toList = [] := by decide
  rw [e1, e2] at h4
  rw [e1, e3] at h5
  simp only [List.nil_append] at h4
  simp only [List.append_nil] at h5
  rw [e1, ← h4, ← h5] at h1
  cases h1

/-- C18 (amended): every string `s` is `a ++ trim_ws (s) ++ b` with `a` and
`b` made of whitespace only (space, `\t`, `\n`, `\v`, `\f`, `\r`), and
`trim_ws (s)` is empty or begins and ends with a character that is not
whitespace; `trim_trailing_ws` removes only the suffix `b`;
`trim_leading_ws` removes only the prefix `a` when `s` has a character that
is not whitespace, and returns the empty string when `s` has none.
`" \t\n\v\f\rabcd \t\n\v\f\r"` trims to `"abcd"`. -/
theorem trim_ws_spec (s : tstring) :
    (∃ a b : tstring, s = a ++ trim_ws s ++ b
      ∧ (∀ c ∈ a, is_space c = true) ∧ (∀ c ∈ b, is_space c = true)
      ∧ (trim_ws s = []
        ∨ ((∃ c, (trim_ws s).head? = some c ∧ is_space c = false)
          ∧ (∃ c, (trim_ws s).getLast? = some c ∧ is_space c = false)))
      ∧ trim_trailing_ws s = a ++ trim_ws s
      ∧ ((∃ c ∈ s, is_space c = false) → trim_leading_ws s = trim_ws s ++ b)
      ∧ ((∀ c ∈ s, is_space c = true) → trim_leading_ws s = [] ∧ trim_ws s = []))
    ∧ (∀ c, is_space c = true ↔ c ∈ [' ', '\t', '\n', '\x0b', '\x0c', '\r'])
    ∧ trim_ws " \t\n\x0b\x0c\rabcd \t\n\x0b\x0c\r".toList = "abcd".toList
    ∧ trim_leading_ws " \t\n\x0b\x0c\rabcd".toList = "abcd".toList
    ∧ trim_trailing_ws "abcd \t\n\x0b\x0c\r".toList = "abcd".toList := by
  refine ⟨⟨(trim_trailing_ws s).takeWhile is_space, s.rtakeWhile is_space,
    (trim_ws_decomposition s).1, ?_, ?_, ?_, (trim_ws_decomposition s).2, ?_, ?_⟩,
    ?_, by decide, by decide, by decide⟩
  · intro c hc
    exact List.mem_takeWhile_imp hc
  · intro c hc
    exact List.mem_rtakeWhile_imp hc
  · by_cases h : trim_ws s = []
    · exact Or.inl h
    · exact Or.inr (trim_ws_ends s h)
  · rintro ⟨c, hc, hns⟩
    have hs := rdropWhile_append_rtakeWhile is_space s
    have hc2 : c ∈ s.rdropWhile is_space := by
      rw [← hs] at hc
      rcases List.mem_append.1 hc with e | e
      · exact e
      · have := List.mem_rtakeWhile_imp e
        rw [hns] at this
        cases this
    have hne : (s.rdropWhile is_space).dropWhile is_space ≠ [] := by
      intro e
      have := mem_dropWhile_of_mem is_space _ c hc2 hns
      rw [e] at this
      cases this
    have : trim_leading_ws s
        = trim_leading_ws (s.rdropWhile is_space ++ s.rtakeWhile is_space) := by rw [hs]
    rw [this]
    unfold trim_ws trim_leading_ws
    rw [trim_trailing_ws_eq, List.dropWhile_append]
    cases hd : (s.rdropWhile is_space).dropWhile is_space with
    | nil => exact absurd hd hne
    | cons x xs => rfl
  · intro hall
    have h1 : trim_leading_ws s = [] := by
      unfold trim_leading_ws
      exact List.dropWhile_eq_nil_iff.2 hall
    have h2 : trim_trailing_ws s = [] := by
      rw [trim_trailing_ws_eq]
      exact List.rdropWhile_eq_nil_iff.2 hall
    refine ⟨h1, ?_⟩
    unfold trim_ws
    rw [h2]
    rfl
  · intro c
    simp only [is_space, Bool.or_eq_true, beq_iff_eq, List.mem_cons, List.mem_singleton,
      List.not_mem_nil, or_false, or_assoc]

theorem trim_ws_spec_witness :
    ∃ a b : tstring, " \tab c\r ".toList = a ++ trim_ws " \tab c\r ".toList ++ b
      ∧ (∀ c ∈ a, is_space c = true) ∧ (∀ c ∈ b, is_space c = true)
      ∧ (trim_ws " \tab c\r ".toList = []
        ∨ ((∃ c, (trim_ws " \tab c\r ".toList).head? = some c ∧ is_space c = false)
          ∧ (∃ c, (trim_ws " \tab c\r ".toList).getLast? = some c ∧ is_space c = false)))
      ∧ trim_trailing_ws " \tab c\r ".toList = a ++ trim_ws " \tab c\r ".toList
      ∧ ((∃ c ∈ " \tab c\r ".toList, is_space c = false) →
          trim_leading_ws " \tab c\r ".toList = trim_ws " \tab c\r ".toList ++ b)
      ∧ ((∀ c ∈ " \tab c\r ".toList, is_space c = true) →
          trim_leading_ws " \tab c\r ".toList = [] ∧ trim_ws " \tab c\r ".toList = []) :=
  (trim_ws_spec " \tab c\r ".toList).1

/-! ## Decimal text -/

theorem digitChar_isDigit (d : Nat) (h : d < 10) :
    (Nat.digitChar d).isDigit = true ∧ digitValue (Nat.digitChar d) = d := by
  interval_cases d <;> decide

theorem toDigitsCore_value (fuel : Nat) : ∀ (n : Nat) (ds : tstring), n < fuel →
    (Nat.toDigitsCore 10 fuel n ds).foldl (fun acc c => 10 * acc + digitValue c) 0
      = ds.foldl (fun acc c => 10 * acc + digitValue c) n := by
  induction fuel with
  | zero => intro n ds h; omega
  | succ f ih =>
    intro n ds h
    have hd := (digitChar_isDigit (n % 10) (Nat.mod_lt _ (by decide))).2
    unfold Nat.toDigitsCore
    by_cases h0 : n / 10 = 0
    · simp only [h0, if_true, List.foldl_cons, hd]
      congr 1
      omega
    · simp only [h0, if_false]
      rw [ih (n / 10) _ (by omega)]
      simp only [List.foldl_cons, hd]
      congr 1
      omega

theorem toDigitsCore_digits (fuel : Nat) : ∀ (n : Nat) (ds : tstring),
    (∀ c ∈ ds, c.isDigit = true) →
    ∀ c ∈ Nat.toDigitsCore 10 fuel n ds, c.isDigit = true := by
  induction fuel with
  | zero => intro n ds h; exact h
  | succ f ih =>
    intro n ds h
    have hd := (digitChar_isDigit (n % 10) (Nat.mod_lt _ (by decide))).1
    have hds : ∀ c ∈ Nat.digitChar (n % 10) :: ds, c.isDigit = true := by
      intro c hc
      rcases List.mem_cons.1 hc with e | e
      · rw [e]; exact hd
      · exact h c e
    unfold Nat.toDigitsCore
    by_cases h0 : n / 10 = 0
    · simp only [h0, if_true]; exact hds
    · simp only [h0, if_false]; exact ih _ _ hds

theorem toDigitsCore_ne_nil (fuel : Nat) : ∀ (n : Nat) (ds : tstring), ds ≠ [] →
    Nat.toDigitsCore 10 fuel n ds ≠ [] := by
  induction fuel with
  | zero => intro n ds h; exact h
  | succ f ih =>
    intro n ds h
    unfold Nat.toDigitsCore
    by_cases h0 : n / 10 = 0
    · simp [h0]
    · simp only [h0, if_false]; exact ih _ _ (by simp)

/-- The decimal digits of a natural number: a non-empty run of digits
whose value is the number. -/
theorem toDigits_facts (m : Nat) :
    Nat.toDigits 10 m ≠ [] ∧ (∀ c ∈ Nat.toDigits 10 m, c.isDigit = true)
      ∧ decimalValue (Nat.toDigits 10 m) = m := by
  refine ⟨?_, ?_, ?_⟩
  · unfold Nat.toDigits Nat.toDigitsCore
    by_cases h0 : m / 10 = 0
    · simp [h0]
    · simp only [h0, if_false]; exact toDigitsCore_ne_nil _ _ _ (by simp)
  · exact toDigitsCore_digits _ _ _ (by simp)
  · unfold decimalValue Nat.toDigits
    rw [toDigitsCore_value _ _ _ (by omega)]
    rfl

theorem isDigit_not_space (c : Char) (h : c.isDigit = true) :
    is_space c = false ∧ c ≠ '-' ∧ c ≠ '+' := by
  refine ⟨?_, ?_, ?_⟩
  · cases hs : is_space c with
    | false => rfl
    | true =>
      simp only [is_space, Bool.or_eq_true, beq_iff_eq] at hs
      rcases hs with ((((e | e) | e) | e) | e) | e <;> (rw [e] at h; exact absurd h (by decide))
  · intro e; rw [e] at h; exact absurd h (by decide)
  · intro e; rw [e] at h; exact absurd h (by decide)

/-! ## Extraction of a number -/

theorem dropWhile_of_head (p : Char → Bool) (l : tstring)
    (h : ∀ c, l.head? = some c → p c = false) : l.dropWhile p = l ∧ l.takeWhile p = [] := by
  cases l with
  | nil => exact ⟨rfl, rfl⟩
  | cons a t =>
    have := h a rfl
    simp [List.dropWhile_cons, List.takeWhile_cons, this]

/-- What `extractInteger` gives on whitespace, a sign, a run of digits and a
rest that does not go on with a digit. -/
theorem extractInteger_token (isSigned : Bool) (bits : Nat)
    (ws sign digits rest : tstring)
    (hws : ∀ c ∈ ws, is_space c = true)
    (hsign : sign = [] ∨ sign = ['+'] ∨ sign = ['-'])
    (hne : digits ≠ [])
    (hdig : ∀ c ∈ digits, c.isDigit = true)
    (hrest : ∀ c, rest.head? = some c → c.isDigit = false) :
    extractInteger isSigned bits (ws ++ sign ++ digits ++ rest)
      = if isSigned then
          if sign = ['-'] then
            if decimalValue digits ≤ 2 ^ (bits - 1)
            then some (-(decimalValue digits : Int), rest) else none
          else
            if decimalValue digits ≤ 2 ^ (bits - 1) - 1
            then some ((decimalValue digits : Int), rest) else none
        else
          if decimalValue digits ≤ 2 ^ bits - 1 then
            some (if sign = ['-']
              then (((2 ^ bits - decimalValue digits) % 2 ^ bits : Nat) : Int)
              else (decimalValue digits : Int), rest)
          else none := by
  obtain ⟨d, ds, rfl⟩ : ∃ d ds, digits = d :: ds := by
    cases digits with
    | nil => exact absurd rfl hne
    | cons d ds => exact ⟨d, ds, rfl⟩
  have hd : d.isDigit = true := hdig d (by simp)
  obtain ⟨hd1, hd2, hd3⟩ := isDigit_not_space d hd
  have htw : (d :: ds ++ rest).takeWhile Char.isDigit = d :: ds := by
    rw [List.takeWhile_append_of_pos hdig, (dropWhile_of_head _ rest hrest).2,
      List.append_nil]
  have hdw : (d :: ds ++ rest).dropWhile Char.isDigit = rest := by
    rw [List.dropWhile_append_of_pos hdig, (dropWhile_of_head _ rest hrest).1]
  have hs1 : (ws ++ sign ++ (d :: ds) ++ rest).dropWhile is_space
      = sign ++ (d :: ds ++ rest) := by
    rw [List.append_assoc, List.append_assoc, List.dropWhile_append_of_pos hws]
    apply (dropWhile_of_head _ _ _).1
    intro c hc
    rcases hsign with e | e | e
    · subst e
      simp only [List.nil_append, List.cons_append, List.head?_cons,
        Option.some.injEq] at hc
      rw [← hc]; exact hd1
    · subst e
      simp only [List.cons_append, List.head?_cons, Option.some.injEq] at hc
      rw [← hc]; decide
    · subst e
      simp only [List.cons_append, List.head?_cons, Option.some.injEq] at hc
      rw [← hc]; decide
  unfold extractInteger
  simp only [hs1]
  rcases hsign with e | e | e
  · subst e
    have h1 : ((d :: ds ++ rest).head? == some '-') = false := by simp [hd2]
    have h2 : ((d :: ds ++ rest).head? == some '+') = false := by simp [hd3]
    simp only [List.nil_append, h1, h2, Bool.or_self, Bool.false_eq_true, if_false, htw,
      hdw, List.isEmpty_cons]
    simp
  · subst e
    have h1 : ((['+'] ++ (d :: ds ++ rest)).head? == some '-') = false := by
      simp only [List.cons_append, List.nil_append, List.head?_cons]
      decide
    have h2 : ((['+'] ++ (d :: ds ++ rest)).head? == some '+') = true := by simp
    have h3 : (['+'] ++ (d :: ds ++ rest)).drop 1 = d :: ds ++ rest := rfl
    simp only [h1, h2, Bool.or_true, Bool.false_or, if_true, h3, htw, hdw,
      List.isEmpty_cons, Bool.false_eq_true, if_false]
    simp
  · subst e
    have h1 : ((['-'] ++ (d :: ds ++ rest)).head? == some '-') = true := by simp
    have h3 : (['-'] ++ (d :: ds ++ rest)).drop 1 = d :: ds ++ rest := rfl
    simp only [h1, Bool.true_or, if_true, h3, htw, hdw, List.isEmpty_cons,
      Bool.false_eq_true, if_false]

theorem decimalText_ends (n : Int) :
    (∀ c, (decimalText n).head? = some c → is_space c = false)
    ∧ (∀ c, (decimalText n).getLast? = some c → is_space c = false) := by
  have hdig : ∀ m c, c ∈ Nat.toDigits 10 m → is_space c = false := fun m c hc =>
    (isDigit_not_space c ((toDigits_facts m).2.1 c hc)).1
  unfold decimalText
  by_cases hn : n < 0
  · simp only [hn, if_true]
    refine ⟨?_, ?_⟩
    · intro c hc
      simp only [List.head?_cons, Option.some.injEq] at hc
      rw [← hc]; decide
    · intro c hc
      have hne := (toDigits_facts n.natAbs).1
      have hm := List.mem_of_getLast?_eq_some hc
      rcases List.mem_cons.1 hm with e | e
      · exfalso
        cases hd : Nat.toDigits 10 n.natAbs with
        | nil => exact hne hd
        | cons x xs =>
          rw [hd, List.getLast?_cons_cons] at hc
          have hx := List.mem_of_getLast?_eq_some hc
          rw [← hd] at hx
          have := (isDigit_not_space c ((toDigits_facts n.natAbs).2.1 c hx)).2.1
          exact this e
      · exact hdig _ c e
  · simp only [hn, if_false]
    refine ⟨?_, ?_⟩
    · intro c hc
      exact hdig _ c (List.mem_of_mem_head? hc)
    · intro c hc
      exact hdig _ c (List.mem_of_getLast?_eq_some hc)

/-- The extraction reads the decimal text of a value of the type back. -/
theorem extractInteger_decimalText (isSigned : Bool) (bits : Nat) (n : Int)
    (h : InRange isSigned bits n) :
    extractInteger isSigned bits (decimalText n) = some (n, []) := by
  have hpow : ((2 ^ (bits - 1) : Nat) : Int) = (2 : Int) ^ (bits - 1) := by push_cast; rfl
  have hpow2 : ((2 ^ bits : Nat) : Int) = (2 : Int) ^ bits := by push_cast; rfl
  have hpos : 0 < 2 ^ (bits - 1) := Nat.two_pow_pos _
  have hpos2 : 0 < 2 ^ bits := Nat.two_pow_pos _
  unfold InRange at h
  by_cases hn : n < 0
  · obtain ⟨f1, f2, f3⟩ := toDigits_facts n.natAbs
    have ht : decimalText n = [] ++ ['-'] ++ Nat.toDigits 10 n.natAbs ++ [] := by
      unfold decimalText
      simp [hn]
    rw [ht, extractInteger_token isSigned bits [] ['-'] _ [] (by simp)
      (Or.inr (Or.inr rfl)) f1 f2 (by simp), f3]
    cases isSigned with
    | false =>
      simp only [Bool.false_eq_true, if_false] at h
      omega
    | true =>
      simp only [if_true] at h
      have hle : n.natAbs ≤ 2 ^ (bits - 1) := by omega
      simp only [if_true, hle]
      congr 2
      omega
  · obtain ⟨f1, f2, f3⟩ := toDigits_facts n.toNat
    have ht : decimalText n = [] ++ [] ++ Nat.toDigits 10 n.toNat ++ [] := by
      unfold decimalText
      simp [hn]
    rw [ht, extractInteger_token isSigned bits [] [] _ [] (by simp) (Or.inl rfl) f1 f2
      (by simp), f3]
    have hne : ¬ (([] : tstring) = ['-']) := by simp
    cases isSigned with
    | false =>
      simp only [Bool.false_eq_true, if_false, hne] at h ⊢
      have hle : n.toNat ≤ 2 ^ bits - 1 := by omega
      simp only [hle, if_true]
      congr 2
      omega
    | true =>
      simp only [if_true, hne, if_false] at h ⊢
      have hle : n.toNat ≤ 2 ^ (bits - 1) - 1 := by omega
      simp only [hle, if_true]
      congr 2
      omega

theorem get_type_val_worker_of_text (isSigned : Bool) (bits : Nat) (data : StringMap)
    (val : Int) (key text : tstring) (hfind : data.find key = some text) :
    get_type_val_worker isSigned bits data val key
      = match extractInteger isSigned bits text with
        | none => (false, val)
        | some (tmp_val, rest) =>
          if (extractChar rest).isSome then (false, val) else (true, tmp_val) := by
  unfold get_type_val_worker exists_ getProperty
  rw [hfind]
  rfl

theorem lastAssignment_append_single (pre post : List tstring) (L : tstring) (k : tstring)
    (hk : assignedKey L = k) (hpost : ∀ M ∈ post, assignedKey M ≠ k) :
    lastAssignment (pre ++ [L] ++ post) k = some (assignedValue L) := by
  have hp : lastAssignment post k = none := by
    induction post with
    | nil => rfl
    | cons M rest ih =>
      rw [lastAssignment_cons, ih (fun X hX => hpost X (List.mem_cons_of_mem _ hX))]
      simp [hpost M (by simp)]
  have hl : lastAssignment (L :: post) k = some (assignedValue L) := by
    rw [lastAssignment_cons, hp]
    simp [hk]
  rw [List.append_assoc]
  induction pre with
  | nil => exact hl
  | cons M rest ih =>
    rw [List.cons_append, lastAssignment_cons, ih]

theorem assignment_line_parts (k text : tstring) (hk1 : '=' ∉ k) :
    assignedKey (k ++ '=' :: text) = trim_ws k
    ∧ assignedValue (k ++ '=' :: text) = trim_ws text := by
  have hall : ∀ a ∈ k, (fun c : Char => c != '=') a = true := by
    intro a ha
    have : a ≠ '=' := fun e => hk1 (e ▸ ha)
    simp [this]
  refine ⟨?_, ?_⟩
  · unfold assignedKey
    rw [List.takeWhile_append_of_pos hall]
    simp
  · unfold assignedValue
    rw [List.dropWhile_append_of_pos hall]
    simp

/-- The typed read of a key whose stored text is the decimal text of a value
of the type. -/
theorem get_type_val_worker_decimalText (isSigned : Bool) (bits : Nat) (data : StringMap)
    (val n : Int) (key : tstring) (hfind : data.find key = some (decimalText n))
    (h : InRange isSigned bits n) :
    get_type_val_worker isSigned bits data val key = (true, n) := by
  rw [get_type_val_worker_of_text _ _ _ _ _ _ hfind, extractInteger_decimalText _ _ _ h]
  rfl

/-- C11: load, then typed read.  When a stream of plain assignment lines
has the line `k=<decimal text of n>`, where `k` is the key of that line (no
`=` in it, no whitespace at its ends), and no later line assigns `k`, the
load returns and each getter whose type holds `n` returns `true` and sets
`val` to `n`: `getInt`, `getUInt`, `getLong`, `getULong`, and the worker at
every width. -/
theorem typed_read_round_trip (fuel : Nat) (fs : FS) (env : Env) (s : tstring)
    (pre post : List tstring) (k : tstring) (n val0 : Int)
    (hlines : getlines s = pre ++ [k ++ '=' :: decimalText n] ++ post)
    (hplain : ∀ L ∈ getlines s, PlainAssignment L)
    (hk1 : '=' ∉ k) (hk2 : trim_ws k = k)
    (hpost : ∀ L ∈ post, assignedKey L ≠ k) :
    ∃ r, PropertiesFromStream (fuel + 1) fs env (some s) = some r
      ∧ getProperty r.data k = decimalText n
      ∧ (∀ isSigned bits, InRange isSigned bits n →
          get_type_val_worker isSigned bits r.data val0 k = (true, n))
      ∧ (InRange true INT_BITS n → getInt r.data val0 k = (true, n))
      ∧ (InRange false INT_BITS n → getUInt r.data val0 k = (true, n))
      ∧ (InRange true LONG_BITS n → getLong r.data val0 k = (true, n))
      ∧ (InRange false LONG_BITS n → getULong r.data val0 k = (true, n)) := by
  obtain ⟨p1, p2⟩ := assignment_line_parts k (decimalText n) hk1
  rw [hk2] at p1
  have hv : trim_ws (decimalText n) = decimalText n :=
    trim_ws_of_ends _ (decimalText_ends n).1 (decimalText_ends n).2
  rw [hv] at p2
  have hfind : ((getlines s).foldl
      (fun d L => setProperty d (assignedKey L) (assignedValue L)) []).find k
      = some (decimalText n) := by
    rw [find_foldl_assignments, hlines, lastAssignment_append_single pre post _ k p1 hpost,
      p2]
  refine ⟨_, initLines_assignments _ fs env 0 (getlines s) hplain [], ?_, ?_, ?_, ?_, ?_, ?_⟩
  · unfold getProperty
    simp only []
    rw [hfind]
  · intro isSigned bits h
    exact get_type_val_worker_decimalText _ _ _ _ _ _ hfind h
  · exact get_type_val_worker_decimalText _ _ _ _ _ _ hfind
  · exact get_type_val_worker_decimalText _ _ _ _ _ _ hfind
  · exact get_type_val_worker_decimalText _ _ _ _ _ _ hfind
  · exact get_type_val_worker_decimalText _ _ _ _ _ _ hfind

theorem typed_read_round_trip_witness :
    (∃ r, PropertiesFromStream (0 + 1) (fun _ => none) (fun _ => none)
        (some "bool=true\r\nbool1=1\nint=-1\nuint=42\nlong=-65537\nulong=65537".toList)
        = some r
      ∧ getProperty r.data "int".toList = decimalText (-1)
      ∧ (∀ isSigned bits, InRange isSigned bits (-1) →
          get_type_val_worker isSigned bits r.data 0 "int".toList = (true, -1))
      ∧ (InRange true INT_BITS (-1) → getInt r.data 0 "int".toList = (true, -1))
      ∧ (InRange false INT_BITS (-1) → getUInt r.data 0 "int".toList = (true, -1))
      ∧ (InRange true LONG_BITS (-1) → getLong r.data 0 "int".toList = (true, -1))
      ∧ (InRange false LONG_BITS (-1) → getULong r.data 0 "int".toList = (true, -1)))
    ∧ InRange true INT_BITS (-1)
    ∧ (∃ r, PropertiesFromStream 1 (fun _ => none) (fun _ => none)
        (some "bool=true\r\nbool1=1\nint=-1\nuint=42\nlong=-65537\nulong=65537".toList)
        = some r
      ∧ getInt r.data 0 "int".toList = (true, -1)
      ∧ getUInt r.data 0 "uint".toList = (true, 42)
      ∧ getLong r.data 0 "long".toList = (true, -65537)
      ∧ getULong r.data 0 "ulong".toList = (true, 65537)) :=
  ⟨typed_read_round_trip 0 (fun _ => none) (fun _ => none)
      "bool=true\r\nbool1=1\nint=-1\nuint=42\nlong=-65537\nulong=65537".toList
      ["bool=true\r".toList, "bool1=1".toList]
      ["uint=42".toList, "long=-65537".toList, "ulong=65537".toList] "int".toList (-1) 0
      (by decide) (by decide) (by decide) (by decide) (by decide),
    by decide,
    ⟨⟨[("bool".toList, "true".toList), ("bool1".toList, "1".toList),
        ("int".toList, "-1".toList), ("long".toList, "-65537".toList),
        ("uint".toList, "42".toList), ("ulong".toList, "65537".toList)], []⟩,
      by decide, by decide, by decide, by decide, by decide⟩⟩

/-! ## Typed reads that fail -/

/-- The result of the extraction on a text that starts with a number. -/
theorem extractInteger_of_number (isSigned : Bool) (bits : Nat) (text rest : tstring)
    (negative : Bool) (magnitude : Nat)
    (h : StartsWithNumber text negative magnitude rest) :
    (Accepted isSigned bits negative magnitude →
      extractInteger isSigned bits text
        = some (storedValue isSigned bits negative magnitude, rest))
    ∧ (¬ Accepted isSigned bits negative magnitude →
      extractInteger isSigned bits text = none) := by
  obtain ⟨ws, sign, digits, ht, hws, hsign, hne, hdig, hrest, hneg, hmag⟩ := h
  have hpow : ((2 ^ (bits - 1) : Nat) : Int) = (2 : Int) ^ (bits - 1) := by push_cast; rfl
  have hpos : 0 < 2 ^ (bits - 1) := Nat.two_pow_pos _
  rw [ht, extractInteger_token isSigned bits ws sign digits rest hws hsign hne hdig hrest,
    ← hmag]
  unfold Accepted storedValue signedValue InRange
  by_cases hs : sign = ['-']
  · have hn : negative = true := by rw [hneg, hs]; rfl
    subst hn
    cases isSigned with
    | true =>
      simp only [if_true, hs]
      refine ⟨fun h => ?_, fun h => ?_⟩
      · rw [if_pos (by omega)]
      · rw [if_neg (by omega)]
    | false =>
      simp only [Bool.false_eq_true, if_false, hs, if_true]
      exact ⟨fun h => by rw [if_pos h], fun h => by rw [if_neg h]⟩
  · have hn : negative = false := by
      rw [hneg]
      simpa using hs
    subst hn
    cases isSigned with
    | true =>
      simp only [if_true, hs, if_false, Bool.false_eq_true]
      refine ⟨fun h => ?_, fun h => ?_⟩
      · rw [if_pos (by omega)]
      · rw [if_neg (by omega)]
    | false =>
      simp only [Bool.false_eq_true, if_false, hs]
      exact ⟨fun h => by rw [if_pos h], fun h => by rw [if_neg h]⟩

/-- A text on which the extraction does not fail for want of digits starts
with a number. -/
theorem extractInteger_none_of_no_number (isSigned : Bool) (bits : Nat) (text : tstring)
    (h : ¬ ∃ negative magnitude rest, StartsWithNumber text negative magnitude rest) :
    extractInteger isSigned bits text = none := by
  have hsplit := (List.takeWhile_append_dropWhile is_space text).symm
  generalize hs1 : text.dropWhile is_space = s1 at hsplit
  have hhead : ∀ c, s1.head? = some c → is_space c = false := by
    intro c hc
    have := List.head?_dropWhile_not is_space text
    rw [hs1, hc] at this
    exact this
  have key : ∀ (sign s2 : tstring), s1 = sign ++ s2 →
      (sign = [] ∨ sign = ['+'] ∨ sign = ['-']) →
      (s2.takeWhile Char.isDigit).isEmpty = true := by
    intro sign s2 e hsign
    cases hd : s2.takeWhile Char.isDigit with
    | nil => rfl
    | cons d ds =>
      exfalso
      apply h
      refine ⟨sign == ['-'], decimalValue (s2.takeWhile Char.isDigit),
        s2.dropWhile Char.isDigit, text.takeWhile is_space, sign,
        s2.takeWhile Char.isDigit, ?_, ?_, hsign, ?_, ?_, ?_, rfl, rfl⟩
      · rw [List.append_assoc, List.append_assoc, List.takeWhile_append_dropWhile, ← e]
        exact hsplit
      · intro c hc; exact List.mem_takeWhile_imp hc
      · rw [hd]; simp
      · intro c hc; exact List.mem_takeWhile_imp hc
      · intro c hc
        have := List.head?_dropWhile_not Char.isDigit s2
        rw [hc] at this
        exact this
  unfold extractInteger
  simp only [hs1]
  cases s1 with
  | nil =>
    have := key [] [] rfl (Or.inl rfl)
    simp
  | cons a t =>
    by_cases ha : a = '-'
    · subst ha
      have := key ['-'] t rfl (Or.inr (Or.inr rfl))
      simp [this]
    · by_cases hb : a = '+'
      · subst hb
        have := key ['+'] t rfl (Or.inr (Or.inl rfl))
        simp [this]
      · have := key [] (a :: t) rfl (Or.inl rfl)
        simp [ha, hb, this]

theorem extractChar_isSome (rest : tstring) :
    (extractChar rest).isSome = true ↔ ∃ c ∈ rest, is_space c = false := by
  unfold extractChar
  constructor
  · intro h
    cases hd : rest.dropWhile is_space with
    | nil => rw [hd] at h; cases h
    | cons a t =>
      have hns := List.head?_dropWhile_not is_space rest
      rw [hd] at hns
      have hmem : a ∈ rest := (List.dropWhile_suffix is_space).subset (by rw [hd]; simp)
      exact ⟨a, hmem, hns⟩
  · rintro ⟨c, hc, hns⟩
    have := mem_dropWhile_of_mem is_space rest c hc hns
    cases hd : rest.dropWhile is_space with
    | nil => rw [hd] at this; cases this
    | cons a t => rfl

/-- C12 (counterexample): the text `"-1"` is the number `-1`, which is not
a value of `unsigned`, and `getUInt` returns `true` and sets `val` to
`4294967295`. -/
theorem getUInt_negative_accepted :
    StartsWithNumber "-1".toList true 1 []
    ∧ ¬ InRange false INT_BITS (signedValue true 1)
    ∧ getUInt [("k".toList, "-1".toList)] 7 "k".toList = (true, 4294967295) := by
  refine ⟨⟨[], ['-'], ['1'], rfl, by simp, Or.inr (Or.inr rfl), by simp, by decide,
    by simp, rfl, by decide⟩, by decide, by decide⟩

/-- C12 (amended): a typed read returns `false` and leaves `val` as it was
when (a) the key is absent, or (b) the stored text does not start, after
optional whitespace, with a number the extraction takes (an optional sign
and decimal digits; for `int` and `long` the signed value must be in the
range of the type, for `unsigned` and `unsigned long` the digits must give
at most the largest value of the type, and `-` is allowed), or (c) a
character that is not whitespace follows the number.  Otherwise it returns
`true` and `val` is the number, for an unsigned type and a `-` sign the
number modulo `2 ^ bits`; whitespace after the number does no harm. -/
theorem typed_read_failures (isSigned : Bool) (bits : Nat) (data : StringMap) (val : Int)
    (key : tstring) :
    (data.find key = none → get_type_val_worker isSigned bits data val key = (false, val))
    ∧ (∀ text, data.find key = some text →
        ((¬ ∃ negative magnitude rest, StartsWithNumber text negative magnitude rest) →
          get_type_val_worker isSigned bits data val key = (false, val))
        ∧ (∀ negative magnitude rest, StartsWithNumber text negative magnitude rest →
            (¬ Accepted isSigned bits negative magnitude →
              get_type_val_worker isSigned bits data val key = (false, val))
            ∧ ((∃ c ∈ rest, is_space c = false) →
              get_type_val_worker isSigned bits data val key = (false, val))
            ∧ (Accepted isSigned bits negative magnitude →
              (∀ c ∈ rest, is_space c = true) →
              get_type_val_worker isSigned bits data val key
                = (true, storedValue isSigned bits negative magnitude))))
    ∧ getInt data val key = get_type_val_worker true INT_BITS data val key
    ∧ getUInt data val key = get_type_val_worker false INT_BITS data val key
    ∧ getLong data val key = get_type_val_worker true LONG_BITS data val key
    ∧ getULong data val key = get_type_val_worker false LONG_BITS data val key
    ∧ getInt [("k".toList, "42x".toList)] val "k".toList = (false, val)
    ∧ getInt [("k".toList, "1x".toList)] val "k".toList = (false, val) := by
  have hx : ∀ text : tstring, ("k".toList == "k".toList) = true → 
      StringMap.find [("k".toList, text)] "k".toList = some text := by
    intro text _
    simp [StringMap.find]
  refine ⟨?_, ?_, rfl, rfl, rfl, rfl, ?_, ?_⟩
  · intro h
    unfold get_type_val_worker exists_
    rw [h]
    rfl
  · intro text hfind
    have hw := get_type_val_worker_of_text isSigned bits data val key text hfind
    refine ⟨?_, ?_⟩
    · intro hno
      rw [hw, extractInteger_none_of_no_number _ _ _ hno]
    · intro negative magnitude rest hnum
      obtain ⟨e1, e2⟩ := extractInteger_of_number isSigned bits text rest negative
        magnitude hnum
      refine ⟨?_, ?_, ?_⟩
      · intro hna
        rw [hw, e2 hna]
      · intro hc
        by_cases ha : Accepted isSigned bits negative magnitude
        · rw [hw, e1 ha]
          simp only [(extractChar_isSome rest).2 hc, if_true]
        · rw [hw, e2 ha]
      · intro ha hall
        have hnone : (extractChar rest).isSome = false := by
          cases hs : (extractChar rest).isSome with
          | false => rfl
          | true =>
            obtain ⟨c, hc, hns⟩ := (extractChar_isSome rest).1 hs
            rw [hall c hc] at hns
            cases hns
        rw [hw, e1 ha]
        simp only [hnone, Bool.false_eq_true, if_false]
  · rw [getInt, get_type_val_worker_of_text _ _ _ _ _ _ (hx _ rfl)]
    have : extractInteger true INT_BITS "42x".toList = some (42, "x".toList) := by decide
    rw [this]
    rfl
  · rw [getInt, get_type_val_worker_of_text _ _ _ _ _ _ (hx _ rfl)]
    have : extractInteger true INT_BITS "1x".toList = some (1, "x".toList) := by decide
    rw [this]
    rfl

theorem typed_read_failures_witness :
    get_type_val_worker true INT_BITS [("k".toList, " -12 \r".toList)] 7 "k".toList
      = (true, storedValue true INT_BITS true 12)
    ∧ get_type_val_worker true INT_BITS [("k".toList, "2147483648".toList)] 7 "k".toList
      = (false, 7)
    ∧ get_type_val_worker false INT_BITS [("k".toList, "x1".toList)] 7 "k".toList
      = (false, 7)
    ∧ get_type_val_worker false INT_BITS [("k".toList, "1".toList)] 7 "j".toList
      = (false, 7) :=
  ⟨((typed_read_failures true INT_BITS [("k".toList, " -12 \r".toList)] 7 "k".toList).2.1
      " -12 \r".toList (by decide)).2 true 12 " \r".toList
      ⟨" ".toList, ['-'], "12".toList, rfl, by decide, Or.inr (Or.inr rfl), by decide,
        by decide, by decide, rfl, by decide⟩ |>.2.2 (by decide) (by decide),
    ((typed_read_failures true INT_BITS [("k".toList, "2147483648".toList)] 7
      "k".toList).2.1 "2147483648".toList (by decide)).2 false 2147483648 []
      ⟨[], [], "2147483648".toList, rfl, by decide, Or.inl rfl, by decide,
        by decide, by decide, rfl, by decide⟩ |>.1 (by decide),
    by decide,
    (typed_read_failures false INT_BITS [("k".toList, "1".toList)] 7 "j".toList).1
      (by decide)⟩

end log4cplus.helpers
